import Mathlib

/-!
Verification of the sequence-set (TemporalS) core of MobilityDB.

The definitions below are a shallow embedding of `src/TemporalS.c`.
Timestamps (`TimestampTz`) and base values (`Datum`) are modelled as
integers; the packed variable-length buffer is modelled as a list of
sequences together with the cached bounding box.  Helper functions that
live in files outside the analysed sources (`Period.c`, `TemporalSeq.c`,
`PeriodSet.c`) carry a doc comment starting with `Modelled from the spec:`
and follow the natural-language specification of the repository.
-/

set_option maxHeartbeats 1000000

/-- Modelled from the spec: an inclusive/exclusive bounded time range
(the `Period` struct of `Period.c`, which is not among the analysed
sources).  Fields mirror `lower`, `upper`, `lower_inc`, `upper_inc`. -/
structure Period where
  lower : Int
  upper : Int
  lower_inc : Bool
  upper_inc : Bool
deriving DecidableEq, Repr, Inhabited

/-- A temporal instant: one (value, timestamp) pair.  The type-erased
`Datum` value is modelled as an integer. -/
structure TemporalInst where
  value : Int
  t : Int
deriving DecidableEq, Repr, Inhabited

/-- A temporal sequence: its instants and its bounding period.
Interpolation flags and the value type tag play no role in the analysed
functions and are omitted. -/
structure TemporalSeq where
  instants : List TemporalInst
  period : Period
deriving DecidableEq, Repr, Inhabited

/-- Modelled from the spec: the bounding box of a temporal number,
a value range times a time range (the `BOX` written by
`temporals_make_bbox`, which is not among the analysed sources). -/
structure TBOX where
  xmin : Int
  xmax : Int
  tmin : Int
  tmax : Int
deriving DecidableEq, Repr, Inhabited

/-- A temporal sequence set: the ordered sequences and the eagerly
computed bounding box stored behind them in the packed buffer. -/
structure TemporalS where
  seqs : List TemporalSeq
  bbox : TBOX
deriving DecidableEq, Repr, Inhabited

/-- `timestamp_cmp_internal`: three-way comparison of timestamps. -/
def timestamp_cmp_internal (a b : Int) : Int :=
  if a < b then -1 else if a = b then 0 else 1

/-- Modelled from the spec: does the period contain the timestamp,
respecting the period's own bound flags
(`contains_period_timestamp_internal` of `Period.c`). -/
def contains_period_timestamp_internal (p : Period) (t : Int) : Bool :=
  (p.lower < t || (p.lower == t && p.lower_inc)) &&
  (t < p.upper || (t == p.upper && p.upper_inc))

/-- Modelled from the spec: do two periods share at least one point,
where `[a,b)` and `[b,c]` are adjacent but disjoint while `[a,b]` and
`[b,c]` overlap (`overlaps_period_period_internal` of `Period.c`). -/
def overlaps_period_period_internal (p q : Period) : Bool :=
  (p.lower < q.upper || (p.lower == q.upper && p.lower_inc && q.upper_inc)) &&
  (q.lower < p.upper || (q.lower == p.upper && q.lower_inc && p.upper_inc))

/-- Modelled from the spec: does period `p` contain period `q`
(`contains_period_period_internal` of `Period.c`). -/
def contains_period_period_internal (p q : Period) : Bool :=
  (p.lower < q.lower || (p.lower == q.lower && (p.lower_inc || !q.lower_inc))) &&
  (q.upper < p.upper || (q.upper == p.upper && (p.upper_inc || !q.upper_inc)))

/-- Modelled from the spec: the intersection of two periods, absent when
they are disjoint (`intersection_period_period_internal` of `Period.c`). -/
def intersection_period_period_internal (p q : Period) : Option Period :=
  if overlaps_period_period_internal p q then
    let lower := if p.lower > q.lower then (p.lower, p.lower_inc)
      else if p.lower < q.lower then (q.lower, q.lower_inc)
      else (p.lower, p.lower_inc && q.lower_inc)
    let upper := if p.upper < q.upper then (p.upper, p.upper_inc)
      else if p.upper > q.upper then (q.upper, q.upper_inc)
      else (p.upper, p.upper_inc && q.upper_inc)
    some ⟨lower.1, upper.1, lower.2, upper.2⟩
  else none

/-- Modelled from the spec: total order on periods, by lower bound, then
lower inclusivity, then upper bound, then upper inclusivity
(`period_cmp_internal` of `Period.c`).  An inclusive lower bound sorts
before an exclusive one at the same timestamp; an exclusive upper bound
sorts before an inclusive one. -/
def period_cmp_internal (p q : Period) : Int :=
  if p.lower ≠ q.lower then timestamp_cmp_internal p.lower q.lower
  else if p.lower_inc ≠ q.lower_inc then (if p.lower_inc then -1 else 1)
  else if p.upper ≠ q.upper then timestamp_cmp_internal p.upper q.upper
  else if p.upper_inc ≠ q.upper_inc then (if p.upper_inc then 1 else -1)
  else 0

/-- Modelled from the spec: period equality (`period_eq_internal`). -/
def period_eq_internal (p q : Period) : Bool :=
  period_cmp_internal p q == 0

/-- Modelled from the spec: strict order on periods (`period_lt_internal`). -/
def period_lt_internal (p q : Period) : Bool :=
  period_cmp_internal p q < 0

/-- A well-formed period: the lower bound is at most the upper bound and a
degenerate (single-instant) period is closed on both sides (spec section 3). -/
def period_valid (p : Period) : Prop :=
  p.lower ≤ p.upper ∧ (p.lower = p.upper → p.lower_inc = true ∧ p.upper_inc = true)

instance (p : Period) : Decidable (period_valid p) := by
  unfold period_valid; infer_instance

/-- The error condition the constructor tests on one consecutive pair of
sequences (TemporalS.c lines 113-115): the periods overlap, or they abut
at an equal timestamp with both touching bounds inclusive. -/
def seqpair_bad (p q : Period) : Bool :=
  q.lower < p.upper || (p.upper == q.lower && p.upper_inc && q.lower_inc)

/-- The constructor's validity scan over consecutive pairs of sequences. -/
def temporals_seqarr_ok : List TemporalSeq → Bool
  | s1 :: s2 :: rest =>
    if seqpair_bad s1.period s2.period then false
    else temporals_seqarr_ok (s2 :: rest)
  | _ => true

/-- Value of the last instant of a sequence. -/
def temporalseq_end_value (s : TemporalSeq) : Int :=
  (s.instants.getLastD default).value

/-- Value of the first instant of a sequence. -/
def temporalseq_start_value (s : TemporalSeq) : Int :=
  (s.instants.headD default).value

/-- Modelled from the spec: may two adjacent sequences be merged by
normalization — their trailing/leading instant values agree and their
periods are time-adjacent sharing a boundary with compatible inclusivity
(spec section 4.2; `temporalseqarr_normalize` lives in `TemporalSeq.c`,
not among the analysed sources). -/
def temporalseq_can_merge (s1 s2 : TemporalSeq) : Bool :=
  s1.period.upper == s2.period.lower &&
  (s1.period.upper_inc || s2.period.lower_inc) &&
  temporalseq_end_value s1 == temporalseq_start_value s2

/-- Modelled from the spec: merge two adjacent compatible sequences into
a single longer sequence. -/
def temporalseq_merge (s1 s2 : TemporalSeq) : TemporalSeq :=
  ⟨s1.instants ++ s2.instants,
   ⟨s1.period.lower, s2.period.upper, s1.period.lower_inc, s2.period.upper_inc⟩⟩

/-- Modelled from the spec: left-to-right merging of adjacent compatible
sequences (`temporalseqarr_normalize` of `TemporalSeq.c`). -/
def temporalseqarr_normalize : List TemporalSeq → List TemporalSeq
  | [] => []
  | [s] => [s]
  | s1 :: s2 :: rest =>
    if temporalseq_can_merge s1 s2 then
      temporalseqarr_normalize (temporalseq_merge s1 s2 :: rest)
    else
      s1 :: temporalseqarr_normalize (s2 :: rest)
termination_by l => l.length

/-- Modelled from the spec: the bounding box of one sequence — the range
of its instant values times its period (`temporalseq_make_bbox`). -/
def temporalseq_make_bbox (s : TemporalSeq) : TBOX :=
  let v0 := (s.instants.headD default).value
  { xmin := s.instants.foldl (fun a i => min a i.value) v0
    xmax := s.instants.foldl (fun a i => max a i.value) v0
    tmin := s.period.lower
    tmax := s.period.upper }

/-- Modelled from the spec: the bounding box of a sequence set is the
exact union of its sequences' boxes (`temporals_make_bbox`). -/
def temporals_make_bbox (seqs : List TemporalSeq) : TBOX :=
  let b0 := temporalseq_make_bbox (seqs.headD default)
  seqs.foldl (fun a s =>
    let b := temporalseq_make_bbox s
    { xmin := min a.xmin b.xmin, xmax := max a.xmax b.xmax,
      tmin := min a.tmin b.tmin, tmax := max a.tmax b.tmax }) b0

/-- `temporals_from_temporalseqarr` (TemporalS.c lines 90-185): validate
the consecutive pairs, optionally normalize, pack the sequences and
precompute the bounding box.  An `ereport` error is modelled as
`Except.error`. -/
def temporals_from_temporalseqarr (sequences : List TemporalSeq)
    (normalize : Bool) : Except Unit TemporalS :=
  if sequences.length < 1 then .error ()
  else if !temporals_seqarr_ok sequences then .error ()
  else
    let newsequences :=
      if normalize && sequences.length > 1 then temporalseqarr_normalize sequences
      else sequences
    .ok ⟨newsequences, temporals_make_bbox newsequences⟩

/-- The loop of `temporals_find_timestamp` (TemporalS.c lines 201-226).
`middle` and `seq` are the values of the homonymous C variables at the
loop head: the last probed index and sequence period. -/
def temporals_find_timestamp_loop (seqs : List TemporalSeq) (t : Int)
    (first last middle : Int) (seq : Period) : Bool × Int :=
  if h : first ≤ last then
    let middle1 := (first + last) / 2
    let seq1 := (seqs.getD middle1.toNat default).period
    if contains_period_timestamp_internal seq1 t then (true, middle1)
    else if t ≤ seq1.lower then
      temporals_find_timestamp_loop seqs t first (middle1 - 1) middle1 seq1
    else
      temporals_find_timestamp_loop seqs t (middle1 + 1) last middle1 seq1
  else
    (false, if seq.upper ≤ t then middle + 1 else middle)
termination_by (last + 1 - first).toNat
decreasing_by
  · omega
  · omega

/-- `temporals_find_timestamp` (TemporalS.c lines 201-226): binary search
of a timestamp in a sequence set.  Returns the `found` flag together with
the output parameter `pos`. -/
def temporals_find_timestamp (ts : TemporalS) (t : Int) : Bool × Int :=
  temporals_find_timestamp_loop ts.seqs t 0 ((ts.seqs.length : Int) - 1) 0 default

/-! ## Specification-side predicates -/

/-- The n-th sequence of a sequence list (`temporals_seq_n`, reading the
offset table of the packed buffer). -/
def seqarr_n (l : List TemporalSeq) (i : Nat) : TemporalSeq :=
  l.getD i default

/-- `temporals_seq_n` (TemporalS.c lines 58-63). -/
def temporals_seq_n (ts : TemporalS) (i : Nat) : TemporalSeq :=
  seqarr_n ts.seqs i

/-- The period of the n-th sequence. -/
def periodn (l : List TemporalSeq) (i : Nat) : Period :=
  (seqarr_n l i).period

/-- Propositional membership of a timestamp in a period. -/
def period_mem (p : Period) (t : Int) : Prop :=
  (p.lower < t ∨ (p.lower = t ∧ p.lower_inc = true)) ∧
  (t < p.upper ∨ (t = p.upper ∧ p.upper_inc = true))

instance (p : Period) (t : Int) : Decidable (period_mem p t) := by
  unfold period_mem; infer_instance

/-- The timestamp lies strictly past the period, its bound flags taken
into account. -/
def t_after (t : Int) (p : Period) : Prop :=
  p.upper < t ∨ (p.upper = t ∧ p.upper_inc = false)

/-- The timestamp lies strictly before the period, its bound flags taken
into account. -/
def t_before (t : Int) (p : Period) : Prop :=
  t < p.lower ∨ (t = p.lower ∧ p.lower_inc = false)

instance (t : Int) (p : Period) : Decidable (t_after t p) := by
  unfold t_after; infer_instance

instance (t : Int) (p : Period) : Decidable (t_before t p) := by
  unfold t_before; infer_instance

/-- The constructor's pair test, as a proposition: the two consecutive
periods neither overlap nor abut with both touching bounds inclusive. -/
def seqpair_sep (p q : Period) : Prop :=
  p.upper < q.lower ∨ (p.upper = q.lower ∧ ¬(p.upper_inc = true ∧ q.lower_inc = true))

instance (p q : Period) : Decidable (seqpair_sep p q) := by
  unfold seqpair_sep; infer_instance

/-- Every period of the list is well formed. -/
def seqlist_wf (l : List TemporalSeq) : Prop :=
  ∀ s ∈ l, period_valid s.period

/-- Consecutive sequences are separated (the sequence-set invariant). -/
def seqlist_sep (l : List TemporalSeq) : Prop :=
  ∀ i, i + 1 < l.length → seqpair_sep (periodn l i) (periodn l (i + 1))

/-- Validity of a sequence set (spec section 3): nonempty, well-formed
periods, consecutive sequences separated. -/
def temporals_valid (ts : TemporalS) : Prop :=
  1 ≤ ts.seqs.length ∧ seqlist_wf ts.seqs ∧ seqlist_sep ts.seqs

theorem contains_iff (p : Period) (t : Int) :
    contains_period_timestamp_internal p t = true ↔ period_mem p t := by
  simp [contains_period_timestamp_internal, period_mem]

theorem seqpair_bad_iff (p q : Period) :
    seqpair_bad p q = false ↔ seqpair_sep p q := by
  cases hu : p.upper_inc <;> cases hl : q.lower_inc <;>
    simp [seqpair_bad, seqpair_sep, hu, hl] <;> omega

theorem period_valid_of_wf {l : List TemporalSeq} (h : seqlist_wf l)
    {i : Nat} (hi : i < l.length) : period_valid (periodn l i) := by
  have : seqarr_n l i ∈ l := by
    simp only [seqarr_n, List.getD_eq_getElem?_getD, List.getElem?_eq_getElem hi,
      Option.getD_some]
    exact List.getElem_mem hi
  exact h _ this

/-- Chaining: in a valid list the upper bound of an earlier sequence is at
most the lower bound of any later one. -/
theorem chain_upper_le_lower {l : List TemporalSeq}
    (hwf : seqlist_wf l) (hsep : seqlist_sep l) :
    ∀ d i, i + d + 1 < l.length →
      (periodn l i).upper ≤ (periodn l (i + d + 1)).lower := by
  intro d
  induction d with
  | zero =>
    intro i hi
    rcases hsep i hi with h | h
    · exact le_of_lt h
    · exact le_of_eq h.1
  | succ d ih =>
    intro i hi
    have h1 : (periodn l i).upper ≤ (periodn l (i + d + 1)).lower := by
      apply ih i; omega
    have h2 : (periodn l (i + d + 1)).lower ≤ (periodn l (i + d + 1)).upper :=
      (period_valid_of_wf hwf (by omega)).1
    have h3 : (periodn l (i + d + 1)).upper ≤ (periodn l (i + d + 2)).lower := by
      rcases hsep (i + d + 1) (by omega) with h | h
      · exact le_of_lt h
      · exact le_of_eq h.1
    have : i + (d + 1) + 1 = i + d + 2 := by omega
    rw [this]
    exact le_trans h1 (le_trans h2 h3)

theorem chain_of_lt {l : List TemporalSeq}
    (hwf : seqlist_wf l) (hsep : seqlist_sep l) {i j : Nat}
    (hij : i < j) (hj : j < l.length) :
    (periodn l i).upper ≤ (periodn l j).lower := by
  have h : i + (j - i - 1) + 1 = j := by omega
  have := chain_upper_le_lower hwf hsep (j - i - 1) i (by omega)
  rwa [h] at this

theorem not_mem_of_t_after {p : Period} {t : Int} (h : t_after t p) :
    ¬ period_mem p t := by
  unfold t_after at h
  unfold period_mem
  cases hu : p.upper_inc <;> simp [hu] at h ⊢ <;> omega

theorem not_mem_of_t_before {p : Period} {t : Int} (h : t_before t p) :
    ¬ period_mem p t := by
  unfold t_before at h
  unfold period_mem
  cases hl : p.lower_inc <;> simp [hl] at h ⊢ <;> omega

theorem t_mem_trichotomy {p : Period} {t : Int} (h : ¬ period_mem p t) :
    t_before t p ∨ t_after t p := by
  unfold period_mem at h
  unfold t_before t_after
  cases hl : p.lower_inc <;> cases hu : p.upper_inc <;>
    simp [hl, hu] at h ⊢ <;> omega

theorem not_upper_le_of_t_before {p : Period} {t : Int}
    (hv : period_valid p) (h : t_before t p) : ¬ (p.upper ≤ t) := by
  obtain ⟨h1, h2⟩ := hv
  unfold t_before at h
  cases hl : p.lower_inc <;> simp [hl] at h h2 ⊢ <;> omega

theorem upper_le_of_t_after {p : Period} {t : Int} (h : t_after t p) :
    p.upper ≤ t := by
  unfold t_after at h
  rcases h with h | h
  · exact le_of_lt h
  · exact le_of_eq h.1

theorem t_before_spread {l : List TemporalSeq} (hwf : seqlist_wf l)
    (hsep : seqlist_sep l) {t : Int} {i j : Nat} (hij : i ≤ j)
    (hj : j < l.length) (h : t_before t (periodn l i)) :
    t_before t (periodn l j) := by
  rcases eq_or_lt_of_le hij with rfl | hlt
  · exact h
  · have hi : i < l.length := lt_trans hlt hj
    obtain ⟨h1, h2⟩ := period_valid_of_wf hwf hi
    have hc := chain_of_lt hwf hsep hlt hj
    unfold t_before at h ⊢
    rcases h with h | ⟨he, hf⟩
    · left; omega
    · left
      rcases eq_or_lt_of_le h1 with he2 | he2
      · exact absurd (h2 he2).1 (by simp [hf])
      · omega

theorem t_after_spread {l : List TemporalSeq} (hwf : seqlist_wf l)
    (hsep : seqlist_sep l) {t : Int} {i j : Nat} (hij : i ≤ j)
    (hj : j < l.length) (h : t_after t (periodn l j)) :
    t_after t (periodn l i) := by
  rcases eq_or_lt_of_le hij with rfl | hlt
  · exact h
  · obtain ⟨h1, h2⟩ := period_valid_of_wf hwf hj
    have hc := chain_of_lt hwf hsep hlt hj
    unfold t_after at h ⊢
    rcases h with h | ⟨he, hf⟩
    · left; omega
    · left
      rcases eq_or_lt_of_le h1 with he2 | he2
      · exact absurd (h2 he2).2 (by simp [hf])
      · omega

/-- In a valid sequence set at most one sequence period contains a given
timestamp. -/
theorem period_mem_unique {l : List TemporalSeq} (hwf : seqlist_wf l)
    (hsep : seqlist_sep l) {t : Int} {i j : Nat} (hij : i < j)
    (hj : j < l.length) (hi : period_mem (periodn l i) t) :
    ¬ period_mem (periodn l j) t := by
  intro hjm
  have hc := chain_of_lt hwf hsep hij hj
  obtain ⟨hi1, hi2⟩ := hi
  obtain ⟨hj1, hj2⟩ := hjm
  have h1 : t ≤ (periodn l i).upper := by rcases hi2 with h | h <;> omega
  have h2 : (periodn l j).lower ≤ t := by rcases hj1 with h | h <;> omega
  have he1 : (periodn l i).upper = t := by omega
  have he2 : (periodn l j).lower = t := by omega
  have hui : (periodn l i).upper_inc = true := by
    rcases hi2 with h | ⟨-, h⟩
    · exact absurd h (by omega)
    · exact h
  have hlj : (periodn l j).lower_inc = true := by
    rcases hj1 with h | ⟨-, h⟩
    · exact absurd h (by omega)
    · exact h
  rcases hsep i (by omega) with hs | ⟨hse, hsn⟩
  · by_cases hj2c : j = i + 1
    · subst hj2c; exact absurd hs (by omega)
    · have hc2 := chain_of_lt hwf hsep (show i + 1 < j by omega) hj
      obtain ⟨hv1a, -⟩ := period_valid_of_wf hwf (show i + 1 < l.length by omega)
      exact absurd hs (by omega)
  · by_cases hj2c : j = i + 1
    · subst hj2c; exact hsn ⟨hui, hlj⟩
    · have hc2 := chain_of_lt hwf hsep (show i + 1 < j by omega) hj
      obtain ⟨hv1a, hv1b⟩ := period_valid_of_wf hwf (show i + 1 < l.length by omega)
      have hdeg : (periodn l (i + 1)).lower = (periodn l (i + 1)).upper := by omega
      exact hsn ⟨hui, (hv1b hdeg).1⟩


theorem find_loop_eq_found {l : List TemporalSeq} {t first last middle : Int} {seq : Period}
    (h : first ≤ last)
    (hcont : contains_period_timestamp_internal ((l.getD ((first + last) / 2).toNat default).period) t = true) :
    temporals_find_timestamp_loop l t first last middle seq = (true, (first + last) / 2) := by
  rw [temporals_find_timestamp_loop]
  simp only [dif_pos h, if_pos hcont]

theorem find_loop_eq_left {l : List TemporalSeq} {t first last middle : Int} {seq : Period}
    (h : first ≤ last)
    (hcont : ¬ contains_period_timestamp_internal ((l.getD ((first + last) / 2).toNat default).period) t = true)
    (hle : t ≤ ((l.getD ((first + last) / 2).toNat default).period).lower) :
    temporals_find_timestamp_loop l t first last middle seq =
      temporals_find_timestamp_loop l t first ((first + last) / 2 - 1) ((first + last) / 2)
        ((l.getD ((first + last) / 2).toNat default).period) := by
  rw [temporals_find_timestamp_loop]
  simp only [dif_pos h, if_neg hcont, if_pos hle]

theorem find_loop_eq_right {l : List TemporalSeq} {t first last middle : Int} {seq : Period}
    (h : first ≤ last)
    (hcont : ¬ contains_period_timestamp_internal ((l.getD ((first + last) / 2).toNat default).period) t = true)
    (hgt : ¬ t ≤ ((l.getD ((first + last) / 2).toNat default).period).lower) :
    temporals_find_timestamp_loop l t first last middle seq =
      temporals_find_timestamp_loop l t ((first + last) / 2 + 1) last ((first + last) / 2)
        ((l.getD ((first + last) / 2).toNat default).period) := by
  rw [temporals_find_timestamp_loop]
  simp only [dif_pos h, if_neg hcont, if_neg hgt]

theorem find_loop_eq_exit {l : List TemporalSeq} {t first last middle : Int} {seq : Period}
    (h : ¬ first ≤ last) :
    temporals_find_timestamp_loop l t first last middle seq =
      (false, if seq.upper ≤ t then middle + 1 else middle) := by
  rw [temporals_find_timestamp_loop]
  simp only [dif_neg h]

/-- The invariant carried through the states of the binary-search loop of
`temporals_find_timestamp`, together with the loop's postcondition. -/
def find_loop_motive (l : List TemporalSeq) (t : Int)
    (first last middle : Int) (seq : Period) : Prop :=
  0 ≤ first →
  last < (l.length : Int) →
  (∀ i : Nat, (i : Int) < first → t_after t (periodn l i)) →
  (∀ i : Nat, last < (i : Int) → i < l.length → t_before t (periodn l i)) →
  (first ≤ last ∨
    (first = middle ∧ 0 ≤ middle ∧ middle < (l.length : Int) ∧
      seq = periodn l middle.toNat ∧ t_before t seq) ∨
    (first = middle + 1 ∧ 0 ≤ middle ∧ middle < (l.length : Int) ∧
      seq = periodn l middle.toNat ∧ t_after t seq)) →
  ((temporals_find_timestamp_loop l t first last middle seq).1 = true →
    ∃ i : Nat, (temporals_find_timestamp_loop l t first last middle seq).2 = (i : Int) ∧
      i < l.length ∧ period_mem (periodn l i) t) ∧
  ((temporals_find_timestamp_loop l t first last middle seq).1 = false →
    ∃ ip : Nat, (temporals_find_timestamp_loop l t first last middle seq).2 = (ip : Int) ∧
      ip ≤ l.length ∧
      (∀ i : Nat, i < ip → t_after t (periodn l i)) ∧
      (∀ i : Nat, ip ≤ i → i < l.length → t_before t (periodn l i)))

theorem t_before_of_le_lower {p : Period} {t : Int} (hv : period_valid p)
    (hnm : ¬ period_mem p t) (hle : t ≤ p.lower) : t_before t p := by
  rcases t_mem_trichotomy hnm with hb | ha
  · exact hb
  · obtain ⟨hv1, hv2⟩ := hv
    unfold t_after at ha
    unfold t_before
    rcases ha with ha | ⟨hae, haf⟩
    · omega
    · have hdeg : p.lower = p.upper := by omega
      exact absurd (hv2 hdeg).2 (by simp [haf])

theorem t_after_of_lower_lt {p : Period} {t : Int}
    (hnm : ¬ period_mem p t) (hlt : p.lower < t) : t_after t p := by
  rcases t_mem_trichotomy hnm with hb | ha
  · exfalso
    unfold t_before at hb
    rcases hb with hb | ⟨hb, -⟩ <;> omega
  · exact ha

/-- Full functional specification of the binary-search loop of
`temporals_find_timestamp`. -/
theorem temporals_find_timestamp_loop_spec (l : List TemporalSeq) (t : Int)
    (hwf : seqlist_wf l) (hsep : seqlist_sep l) :
    ∀ (first last middle : Int) (seq : Period),
      find_loop_motive l t first last middle seq := by
  refine temporals_find_timestamp_loop.induct l t (find_loop_motive l t) ?_ ?_ ?_ ?_
  · -- found
    intro first last middle seq h
    dsimp only
    intro hcont
    unfold find_loop_motive
    intro hf hl hpre hpost hentry
    rw [find_loop_eq_found h hcont]
    constructor
    · intro _
      refine ⟨((first + last) / 2).toNat, ?_, by omega, ?_⟩
      · show ((first + last) / 2 : Int) = _
        omega
      · exact (contains_iff _ t).mp hcont
    · intro hfalse
      exact absurd hfalse (by simp)
  · -- go left
    intro first last middle seq h
    dsimp only
    intro hcont hle ih
    unfold find_loop_motive
    intro hf hl hpre hpost hentry
    rw [find_loop_eq_left h hcont hle]
    have hmem : ¬ period_mem (periodn l ((first + last) / 2).toNat) t := by
      intro hm
      exact hcont ((contains_iff _ t).mpr hm)
    have hbef : t_before t (periodn l ((first + last) / 2).toNat) :=
      t_before_of_le_lower
        (period_valid_of_wf hwf (show ((first + last) / 2).toNat < l.length by omega))
        hmem hle
    apply ih hf (by omega) hpre
    · intro i hi1 hi2
      by_cases hc : last < (i : Int)
      · exact hpost i hc hi2
      · exact t_before_spread hwf hsep (show ((first + last) / 2).toNat ≤ i by omega)
          hi2 hbef
    · by_cases hc : first ≤ (first + last) / 2 - 1
      · exact Or.inl hc
      · exact Or.inr (Or.inl ⟨by omega, by omega, by omega, rfl, hbef⟩)
  · -- go right
    intro first last middle seq h
    dsimp only
    intro hcont hgt ih
    unfold find_loop_motive
    intro hf hl hpre hpost hentry
    rw [find_loop_eq_right h hcont hgt]
    have hmem : ¬ period_mem (periodn l ((first + last) / 2).toNat) t := by
      intro hm
      exact hcont ((contains_iff _ t).mpr hm)
    have haft : t_after t (periodn l ((first + last) / 2).toNat) :=
      t_after_of_lower_lt hmem (not_le.mp hgt)
    apply ih (by omega) hl
    · intro i hi1
      by_cases hc : (i : Int) < first
      · exact hpre i hc
      · exact t_after_spread hwf hsep (show i ≤ ((first + last) / 2).toNat by omega)
          (by omega) haft
    · exact hpost
    · by_cases hc : (first + last) / 2 + 1 ≤ last
      · exact Or.inl hc
      · exact Or.inr (Or.inr ⟨rfl, by omega, by omega, rfl, haft⟩)
  · -- exit
    intro first last middle seq h
    unfold find_loop_motive
    intro hf hl hpre hpost hentry
    rw [find_loop_eq_exit h]
    rcases hentry with hc | hexit | hexit
    · exact absurd hc h
    · obtain ⟨he1, he2, he3, he4, he5⟩ := hexit
      have hnle : ¬ (seq.upper ≤ t) := by
        apply not_upper_le_of_t_before _ he5
        rw [he4]
        exact period_valid_of_wf hwf (by omega)
      rw [if_neg hnle]
      constructor
      · intro hh; exact absurd hh (by simp)
      · intro _
        refine ⟨middle.toNat, ?_, by omega, ?_, ?_⟩
        · show middle = _
          omega
        · intro i hi
          exact hpre i (by omega)
        · intro i hi1 hi2
          rcases eq_or_lt_of_le hi1 with he | hlt
          · have hieq : i = middle.toNat := by omega
            rw [hieq]
            exact he4 ▸ he5
          · exact t_before_spread hwf hsep (show middle.toNat ≤ i by omega) hi2
              (he4 ▸ he5)
    · obtain ⟨he1, he2, he3, he4, he5⟩ := hexit
      have hle2 : seq.upper ≤ t := upper_le_of_t_after he5
      rw [if_pos hle2]
      constructor
      · intro hh; exact absurd hh (by simp)
      · intro _
        refine ⟨middle.toNat + 1, ?_, by omega, ?_, ?_⟩
        · show middle + 1 = _
          omega
        · intro i hi
          rcases Nat.lt_succ_iff_lt_or_eq.mp hi with hlt | he
          · exact t_after_spread hwf hsep (le_of_lt hlt) (by omega) (he4 ▸ he5)
          · rw [he]
            exact he4 ▸ he5
        · intro i hi1 hi2
          exact hpost i (by omega) hi2

instance (l : List TemporalSeq) : Decidable (seqlist_sep l) :=
  decidable_of_iff (∀ i, i < l.length - 1 →
      seqpair_sep (periodn l i) (periodn l (i + 1)))
    (by
      constructor
      · intro h i hi
        exact h i (by omega)
      · intro h i hi
        exact h i (by omega))

instance (l : List TemporalSeq) : Decidable (seqlist_wf l) := by
  unfold seqlist_wf; infer_instance

instance (ts : TemporalS) : Decidable (temporals_valid ts) := by
  unfold temporals_valid; infer_instance

/-- Correctness property of the binary search on a sequence set: a `true`
answer names the unique containing sequence; a `false` answer names the
gap position, the bound flags of the neighbouring periods taken into
account. -/
def find_timestamp_correct (ts : TemporalS) (t : Int) : Prop :=
  ((temporals_find_timestamp ts t).1 = true →
    ∃ i : Nat, (temporals_find_timestamp ts t).2 = (i : Int) ∧ i < ts.seqs.length ∧
      period_mem (periodn ts.seqs i) t ∧
      ∀ j : Nat, j < ts.seqs.length → period_mem (periodn ts.seqs j) t → j = i) ∧
  ((temporals_find_timestamp ts t).1 = false →
    ∃ p : Nat, (temporals_find_timestamp ts t).2 = (p : Int) ∧ p ≤ ts.seqs.length ∧
      (∀ i : Nat, i < p → t_after t (periodn ts.seqs i)) ∧
      (∀ i : Nat, p ≤ i → i < ts.seqs.length → t_before t (periodn ts.seqs i)))

/-- The sequence set `{[0,10], [20,30], [40,50]}` of the spec's
`find_timestamp` example. -/
def exC1 : TemporalS :=
  ⟨[⟨[⟨0, 0⟩, ⟨0, 10⟩], ⟨0, 10, true, true⟩⟩,
    ⟨[⟨0, 20⟩, ⟨0, 30⟩], ⟨20, 30, true, true⟩⟩,
    ⟨[⟨0, 40⟩, ⟨0, 50⟩], ⟨40, 50, true, true⟩⟩], default⟩

/-- The insertion position exactly as claim C1 words it: every sequence
before it ends strictly before `t` and every sequence at or after it
starts strictly after `t`, with plain timestamp comparisons that ignore
the periods' bound flags. -/
def claimed_insertion_pos (l : List TemporalSeq) (t : Int) (p : Nat) : Prop :=
  (∀ i : Nat, i < p → (periodn l i).upper < t) ∧
  (∀ i : Nat, p ≤ i → i < l.length → t < (periodn l i).lower)

/-- A singleton sequence set whose only period is `[0,10)`. -/
def exC1open : TemporalS := ⟨[⟨[⟨0, 0⟩, ⟨0, 10⟩], ⟨0, 10, true, false⟩⟩], default⟩

/-- Claim C1, counterexample to the literal insertion-index reading: on the
valid singleton sequence set with period `[0,10)` and `t = 10`, the search
returns `(false, 1)`, but sequence 0 does not end strictly before `t` —
its period merely excludes `t` through its open upper bound. -/
theorem C1_find_timestamp_strict_counterexample :
    temporals_valid exC1open ∧
    temporals_find_timestamp exC1open 10 = (false, 1) ∧
    ¬ claimed_insertion_pos exC1open.seqs 10 1 := by
  refine ⟨by decide, ?_, ?_⟩
  · simp [temporals_find_timestamp, temporals_find_timestamp_loop, exC1open,
      contains_period_timestamp_internal]
  · intro h
    have h0 := h.1 0 (by omega)
    simp [exC1open, periodn, seqarr_n] at h0

/-- Claim C1 (amended): on a valid sequence set the binary search returns
`true` with the unique index whose period contains `t` (inclusive of its
own bound flags), and otherwise `false` with the gap index: every
sequence before it ends before `t` (strictly, or at `t` with an exclusive
upper bound) and every sequence at or after it starts after `t`
(strictly, or at `t` with an exclusive lower bound); in particular the
three example searches of the spec evaluate as stated. -/
theorem C1_find_timestamp_insertion (ts : TemporalS) (t : Int)
    (hv : temporals_valid ts) :
    find_timestamp_correct ts t ∧
    temporals_find_timestamp exC1 15 = (false, 1) ∧
    temporals_find_timestamp exC1 5 = (true, 0) ∧
    temporals_find_timestamp exC1 60 = (false, 3) := by
  obtain ⟨hlen, hwf, hsep⟩ := hv
  have hspec := temporals_find_timestamp_loop_spec ts.seqs t hwf hsep
    0 ((ts.seqs.length : Int) - 1) 0 default
  unfold find_loop_motive at hspec
  have h := hspec (by omega) (by omega)
    (fun i hi => absurd hi (by omega))
    (fun i hi1 hi2 => absurd hi1 (by omega))
    (Or.inl (by omega))
  refine ⟨⟨?_, ?_⟩, ?_, ?_, ?_⟩
  · intro hfound
    obtain ⟨i, hi1, hi2, hi3⟩ := h.1 hfound
    refine ⟨i, hi1, hi2, hi3, ?_⟩
    intro j hj hjm
    rcases lt_trichotomy j i with hc | hc | hc
    · exact absurd hi3 (period_mem_unique hwf hsep hc hi2 hjm)
    · exact hc
    · exact absurd hjm (period_mem_unique hwf hsep hc hj hi3)
  · exact h.2
  · simp [temporals_find_timestamp, temporals_find_timestamp_loop, exC1,
      contains_period_timestamp_internal]
  · simp [temporals_find_timestamp, temporals_find_timestamp_loop, exC1,
      contains_period_timestamp_internal]
  · simp [temporals_find_timestamp, temporals_find_timestamp_loop, exC1,
      contains_period_timestamp_internal]

/-- Witness for claim C1 at the concrete example set and `t = 15`. -/
theorem C1_find_timestamp_insertion_witness :
    temporals_valid exC1 ∧
    (find_timestamp_correct exC1 15 ∧
      temporals_find_timestamp exC1 15 = (false, 1) ∧
      temporals_find_timestamp exC1 5 = (true, 0) ∧
      temporals_find_timestamp exC1 60 = (false, 3)) :=
  ⟨by decide, C1_find_timestamp_insertion exC1 15 (by decide)⟩

/-- `temporals_intersects_timestamp` (TemporalS.c lines 1894-1901).  Note
that the C code returns `false` when the binary search reports `found`. -/
def temporals_intersects_timestamp (ts : TemporalS) (t : Int) : Bool :=
  if (temporals_find_timestamp ts t).1 then false else true

/-- Claim C4 is right about the intent and the code contradicts it: the
function returns the negation of the binary search's `found` flag, so at
the example set and `t = 5` — a timestamp contained in sequence 0 — it
answers `false`. -/
theorem C4_intersects_timestamp_bug :
    (temporals_find_timestamp exC1 5).1 = true ∧
    period_mem (periodn exC1.seqs 0) 5 ∧
    temporals_intersects_timestamp exC1 5 = false ∧
    ∀ (ts : TemporalS) (t : Int),
      temporals_intersects_timestamp ts t = !(temporals_find_timestamp ts t).1 := by
  refine ⟨?_, by decide, ?_, ?_⟩
  · simp [temporals_find_timestamp, temporals_find_timestamp_loop, exC1,
      contains_period_timestamp_internal]
  · simp [temporals_intersects_timestamp, temporals_find_timestamp,
      temporals_find_timestamp_loop, exC1, contains_period_timestamp_internal]
  · intro ts t
    unfold temporals_intersects_timestamp
    cases h : (temporals_find_timestamp ts t).1 <;> simp [h]

/-- The constructor's per-pair error condition (TemporalS.c lines
113-115), as a proposition: consecutive periods overlap, or they abut at
an equal timestamp with both touching bounds inclusive. -/
def seqpair_invalid (p q : Period) : Prop :=
  q.lower < p.upper ∨
  (p.upper = q.lower ∧ p.upper_inc = true ∧ q.lower_inc = true)

instance (p q : Period) : Decidable (seqpair_invalid p q) := by
  unfold seqpair_invalid; infer_instance

theorem seqpair_bad_iff_invalid (p q : Period) :
    seqpair_bad p q = true ↔ seqpair_invalid p q := by
  cases hu : p.upper_inc <;> cases hl : q.lower_inc <;>
    simp [seqpair_bad, seqpair_invalid, hu, hl] <;> omega

theorem periodn_cons (s : TemporalSeq) (l : List TemporalSeq) (i : Nat) :
    periodn (s :: l) (i + 1) = periodn l i := rfl

theorem periodn_zero (s : TemporalSeq) (l : List TemporalSeq) :
    periodn (s :: l) 0 = s.period := rfl

theorem temporals_seqarr_ok_iff (l : List TemporalSeq) :
    temporals_seqarr_ok l = true ↔
      ∀ i, i + 1 < l.length →
        ¬ seqpair_invalid (periodn l i) (periodn l (i + 1)) := by
  induction l with
  | nil => simp [temporals_seqarr_ok]
  | cons s1 rest ih =>
    cases rest with
    | nil => simp [temporals_seqarr_ok]
    | cons s2 rest2 =>
      rw [temporals_seqarr_ok]
      by_cases hb : seqpair_bad s1.period s2.period
      · rw [if_pos hb]
        refine iff_of_false (by simp) ?_
        intro hall
        exact hall 0 (by simp only [List.length_cons]; omega)
          ((seqpair_bad_iff_invalid _ _).mp hb)
      · rw [if_neg hb]
        rw [ih]
        constructor
        · intro h i hi
          cases i with
          | zero =>
            intro hinv
            exact hb ((seqpair_bad_iff_invalid _ _).mpr hinv)
          | succ i2 =>
            rw [periodn_cons, periodn_cons]
            exact h i2 (by simpa using hi)
        · intro h i hi
          have := h (i + 1) (by simpa using hi)
          rwa [periodn_cons, periodn_cons] at this

/-- Claim C2: the constructor errors exactly on an empty input, an
overlapping consecutive pair, or a both-inclusive abutting consecutive
pair; on every other input it returns a sequence set. -/
theorem C2_constructor_validation (sequences : List TemporalSeq)
    (normalize : Bool) :
    (temporals_from_temporalseqarr sequences normalize = .error () ↔
      sequences.length < 1 ∨
        ∃ i : Nat, i + 1 < sequences.length ∧
          seqpair_invalid (periodn sequences i) (periodn sequences (i + 1))) ∧
    ((∃ ts, temporals_from_temporalseqarr sequences normalize = .ok ts) ↔
      ¬ (sequences.length < 1 ∨
        ∃ i : Nat, i + 1 < sequences.length ∧
          seqpair_invalid (periodn sequences i) (periodn sequences (i + 1)))) := by
  unfold temporals_from_temporalseqarr
  by_cases h1 : sequences.length < 1
  · simp only [if_pos h1]
    constructor
    · simp only [true_iff]
      · exact Or.inl h1
    · constructor
      · rintro ⟨ts, hts⟩
        exact absurd hts (by simp)
      · intro hn
        exact absurd (Or.inl h1) hn
  · rw [if_neg h1]
    by_cases h2 : temporals_seqarr_ok sequences
    · rw [if_neg (by simp [h2])]
      constructor
      · constructor
        · intro h
          exact absurd h (by simp)
        · rintro (hc | ⟨i, hi, hinv⟩)
          · exact absurd hc h1
          · exact absurd hinv ((temporals_seqarr_ok_iff sequences).mp h2 i hi)
      · constructor
        · rintro ⟨ts, -⟩
          rintro (hc | ⟨i, hi, hinv⟩)
          · exact absurd hc h1
          · exact absurd hinv ((temporals_seqarr_ok_iff sequences).mp h2 i hi)
        · intro hn
          exact ⟨_, rfl⟩
    · rw [if_pos (by simp [h2])]
      have hex : ∃ i : Nat, i + 1 < sequences.length ∧
          seqpair_invalid (periodn sequences i) (periodn sequences (i + 1)) := by
        by_contra hno
        push_neg at hno
        exact h2 ((temporals_seqarr_ok_iff sequences).mpr
          (fun i hi => hno i hi))
      constructor
      · simp only [true_iff]
        exact Or.inr hex
      · constructor
        · rintro ⟨ts, hts⟩
          exact absurd hts (by simp)
        · intro hn
          exact absurd (Or.inr hex) hn

/-- The loop of `temporals_continuous_value_internal` (TemporalS.c lines
1087-1102): `seq1` holds the previous sequence; note that both compared
values are read from `seq1` itself. -/
def temporals_continuous_value_scan (seq1 : TemporalSeq) :
    List TemporalSeq → Bool
  | [] => true
  | seq2 :: rest =>
    if temporalseq_end_value seq1 ≠ temporalseq_start_value seq1 then false
    else temporals_continuous_value_scan seq2 rest

/-- `temporals_continuous_value_internal` (TemporalS.c lines 1087-1102). -/
def temporals_continuous_value_internal (ts : TemporalS) : Bool :=
  temporals_continuous_value_scan (temporals_seq_n ts 0) (ts.seqs.drop 1)

theorem continuous_scan_iff (s : TemporalSeq) (l : List TemporalSeq) :
    temporals_continuous_value_scan s l = true ↔
      ∀ i < l.length, temporalseq_end_value (seqarr_n (s :: l) i) =
        temporalseq_start_value (seqarr_n (s :: l) i) := by
  induction l generalizing s with
  | nil => simp [temporals_continuous_value_scan]
  | cons x xs ih =>
    rw [temporals_continuous_value_scan]
    by_cases h : temporalseq_end_value s ≠ temporalseq_start_value s
    · rw [if_pos h]
      refine iff_of_false (by simp) ?_
      intro hall
      exact h (hall 0 (by simp))
    · rw [if_neg h]
      push_neg at h
      rw [ih x]
      constructor
      · intro ha i hi
        cases i with
        | zero => exact h
        | succ j => exact ha j (by simpa using hi)
      · intro ha i hi
        exact ha (i + 1) (by simpa using hi)

/-- Claim C9: on a sequence set with at least two sequences the
continuity check succeeds exactly when every sequence except the last has
its own last instant value equal to its own first instant value — the
comparison never looks at the following sequence. -/
theorem C9_continuous_value_compares_self (ts : TemporalS)
    (h2 : 2 ≤ ts.seqs.length) :
    temporals_continuous_value_internal ts = true ↔
      ∀ i : Nat, i < ts.seqs.length - 1 →
        temporalseq_end_value (temporals_seq_n ts i) =
          temporalseq_start_value (temporals_seq_n ts i) := by
  unfold temporals_continuous_value_internal
  cases hc : ts.seqs with
  | nil => simp [hc] at h2
  | cons s rest =>
    have hseq : ∀ i : Nat, temporals_seq_n ts i = seqarr_n (s :: rest) i := by
      intro i
      unfold temporals_seq_n
      rw [hc]
    rw [show List.drop 1 (s :: rest) = rest from rfl, hseq 0,
      show seqarr_n (s :: rest) 0 = s from rfl, continuous_scan_iff]
    constructor
    · intro ha i hi
      rw [hseq i]
      refine ha i ?_
      simp only [List.length_cons] at hi
      omega
    · intro ha i hi
      rw [← hseq i]
      refine ha i ?_
      simp only [List.length_cons]
      omega

/-- A sequence set with two sequences, each internally constant but with
different values on the two sequences (3 then 4). -/
def exC9 : TemporalS :=
  ⟨[⟨[⟨3, 0⟩, ⟨3, 10⟩], ⟨0, 10, true, true⟩⟩,
    ⟨[⟨4, 20⟩, ⟨4, 30⟩], ⟨20, 30, true, true⟩⟩], default⟩

/-- Witness for claim C9: the compare-with-self check answers `true` on a
set whose two sequences carry different values (3 and 4). -/
theorem C9_continuous_value_compares_self_witness :
    2 ≤ exC9.seqs.length ∧
    (temporals_continuous_value_internal exC9 = true ↔
      ∀ i : Nat, i < exC9.seqs.length - 1 →
        temporalseq_end_value (temporals_seq_n exC9 i) =
          temporalseq_start_value (temporals_seq_n exC9 i)) :=
  ⟨by decide, C9_continuous_value_compares_self exC9 (by decide)⟩

/-- `temporals_shift` (TemporalS.c lines 1067-1083): byte-copy the packed
value, then add the interval to every instant's timestamp.  The sequence
periods and the cached bounding box are copied unchanged. -/
def temporals_shift (ts : TemporalS) (interval : Int) : TemporalS :=
  ⟨ts.seqs.map (fun s =>
      ⟨s.instants.map (fun i => ⟨i.value, i.t + interval⟩), s.period⟩),
   ts.bbox⟩

/-- The data-model invariants claim C10 is about: every sequence's period
bounds equal its first and last instant timestamps, and the cached
bounding box is the one the constructor computes for the sequences. -/
def temporals_invariants (ts : TemporalS) : Prop :=
  (∀ s ∈ ts.seqs, s.instants ≠ [] ∧
    s.period.lower = (s.instants.headD default).t ∧
    s.period.upper = (s.instants.getLastD default).t) ∧
  ts.bbox = temporals_make_bbox ts.seqs

instance (ts : TemporalS) : Decidable (temporals_invariants ts) := by
  unfold temporals_invariants; infer_instance

/-- A singleton sequence set with value 7 on `[0,10]`, with its canonical
bounding box. -/
def exC10 : TemporalS :=
  ⟨[⟨[⟨7, 0⟩, ⟨7, 10⟩], ⟨0, 10, true, true⟩⟩], ⟨7, 7, 0, 10⟩⟩

/-- Claim C10 is right about the required invariants and the code breaks
them: shifting the valid singleton `{7@[0,10]}` by 5 yields instants at
15 while the period still ends at 10, and the copied bounding box does
not even cover the shifted instants. -/
theorem C10_shift_breaks_invariants :
    temporals_invariants exC10 ∧
    ¬ temporals_invariants (temporals_shift exC10 5) ∧
    (periodn (temporals_shift exC10 5).seqs 0).upper = 10 ∧
    ((seqarr_n (temporals_shift exC10 5).seqs 0).instants.getLastD default).t = 15 ∧
    ∃ s ∈ (temporals_shift exC10 5).seqs, ∃ i ∈ s.instants,
      (temporals_shift exC10 5).bbox.tmax < i.t := by
  refine ⟨by decide, by decide, by decide, by decide, ?_⟩
  refine ⟨⟨[⟨7, 5⟩, ⟨7, 15⟩], ⟨0, 10, true, true⟩⟩, by decide, ⟨7, 15⟩, by decide, by decide⟩

/-- Modelled from the spec: three-way comparison of two instants, by
timestamp and then by value (`temporalinst_cmp` of `TemporalInst.c`). -/
def temporalinst_cmp (a b : TemporalInst) : Int :=
  if a.t ≠ b.t then timestamp_cmp_internal a.t b.t
  else if a.value ≠ b.value then (if a.value < b.value then -1 else 1)
  else 0

/-- Modelled from the spec: lexicographic instant-by-instant comparison;
a shorter but prefix-equal instant list sorts first. -/
def instarr_cmp : List TemporalInst → List TemporalInst → Int
  | [], [] => 0
  | [], _ :: _ => -1
  | _ :: _, [] => 1
  | a :: as, b :: bs =>
    if temporalinst_cmp a b ≠ 0 then temporalinst_cmp a b
    else instarr_cmp as bs

/-- Modelled from the spec: total order on sequences, by period and then
instant by instant (`temporalseq_cmp` of `TemporalSeq.c`). -/
def temporalseq_cmp (s1 s2 : TemporalSeq) : Int :=
  if period_cmp_internal s1.period s2.period ≠ 0 then
    period_cmp_internal s1.period s2.period
  else instarr_cmp s1.instants s2.instants

/-- The loop of `temporals_cmp` over the first `min` count sequences
(TemporalS.c lines 2122-2131). -/
def temporals_cmp_loop : List TemporalSeq → List TemporalSeq → Int
  | s1 :: l1, s2 :: l2 =>
    if temporalseq_cmp s1 s2 ≠ 0 then temporalseq_cmp s1 s2
    else temporals_cmp_loop l1 l2
  | _, _ => 0

/-- `temporals_cmp` (TemporalS.c lines 2119-2139). -/
def temporals_cmp (ts1 ts2 : TemporalS) : Int :=
  if temporals_cmp_loop ts1.seqs ts2.seqs ≠ 0 then
    temporals_cmp_loop ts1.seqs ts2.seqs
  else if ts1.seqs.length < ts2.seqs.length then -1
  else if ts2.seqs.length < ts1.seqs.length then 1
  else 0

/-- `temporals_eq` (TemporalS.c lines 2145-2166): equal sequence counts,
byte-equal bounding boxes, byte-equal packed representation; byte
equality of the canonical packing is modelled as structural equality. -/
def temporals_eq (ts1 ts2 : TemporalS) : Bool :=
  if ts1.seqs.length ≠ ts2.seqs.length then false
  else if ts1.bbox ≠ ts2.bbox then false
  else decide (ts1.seqs = ts2.seqs)

theorem timestamp_cmp_eq_zero_iff (a b : Int) :
    timestamp_cmp_internal a b = 0 ↔ a = b := by
  unfold timestamp_cmp_internal
  split_ifs <;> simp_all <;> omega

theorem temporalinst_cmp_eq_zero_iff (a b : TemporalInst) :
    temporalinst_cmp a b = 0 ↔ a = b := by
  cases a with | mk av at2 =>
  cases b with | mk bv bt =>
  simp only [temporalinst_cmp, timestamp_cmp_internal, TemporalInst.mk.injEq]
  split_ifs <;> simp_all <;> omega

theorem instarr_cmp_eq_zero_iff (l1 l2 : List TemporalInst) :
    instarr_cmp l1 l2 = 0 ↔ l1 = l2 := by
  induction l1 generalizing l2 with
  | nil => cases l2 <;> simp [instarr_cmp]
  | cons a as ih =>
    cases l2 with
    | nil => simp [instarr_cmp]
    | cons b bs =>
      rw [instarr_cmp]
      by_cases h : temporalinst_cmp a b ≠ 0
      · rw [if_pos h]
        refine iff_of_false h ?_
        intro he
        injection he with h1 h2
        exact h ((temporalinst_cmp_eq_zero_iff a b).mpr h1)
      · rw [if_neg h]
        push_neg at h
        rw [ih bs]
        have hab : a = b := (temporalinst_cmp_eq_zero_iff a b).mp h
        subst hab
        simp

theorem period_cmp_eq_zero_iff (p q : Period) :
    period_cmp_internal p q = 0 ↔ p = q := by
  cases p with | mk pl pu pli pui =>
  cases q with | mk ql qu qli qui =>
  simp only [period_cmp_internal, timestamp_cmp_internal, Period.mk.injEq]
  split_ifs <;> simp_all <;> omega

theorem temporalseq_cmp_eq_zero_iff (s1 s2 : TemporalSeq) :
    temporalseq_cmp s1 s2 = 0 ↔ s1 = s2 := by
  cases s1 with | mk i1 p1 =>
  cases s2 with | mk i2 p2 =>
  simp only [temporalseq_cmp, TemporalSeq.mk.injEq]
  by_cases h : period_cmp_internal p1 p2 ≠ 0
  · rw [if_pos h]
    refine iff_of_false h ?_
    rintro ⟨-, h2⟩
    exact h ((period_cmp_eq_zero_iff p1 p2).mpr h2)
  · rw [if_neg h]
    push_neg at h
    rw [instarr_cmp_eq_zero_iff]
    have : p1 = p2 := (period_cmp_eq_zero_iff p1 p2).mp h
    simp [this]

theorem temporals_cmp_loop_eq_zero_iff (l1 l2 : List TemporalSeq)
    (hlen : l1.length = l2.length) :
    temporals_cmp_loop l1 l2 = 0 ↔ l1 = l2 := by
  induction l1 generalizing l2 with
  | nil =>
    cases l2 with
    | nil => simp [temporals_cmp_loop]
    | cons b bs => simp at hlen
  | cons a as ih =>
    cases l2 with
    | nil => simp at hlen
    | cons b bs =>
      rw [temporals_cmp_loop]
      by_cases h : temporalseq_cmp a b ≠ 0
      · rw [if_pos h]
        refine iff_of_false h ?_
        intro he
        injection he with h1 h2
        exact h ((temporalseq_cmp_eq_zero_iff a b).mpr h1)
      · rw [if_neg h]
        push_neg at h
        have hab : a = b := (temporalseq_cmp_eq_zero_iff a b).mp h
        subst hab
        rw [ih bs (by simpa using hlen)]
        simp

/-- Claim C7: `temporals_eq` answers true exactly when the two sets have
the same sequence count, identical bounding boxes and identical packed
sequences; and, for canonically built values (cached box equal to the
constructor's box), structural equality coincides with
`temporals_cmp == 0`. -/
theorem C7_eq_iff_cmp_zero (ts1 ts2 : TemporalS)
    (hb1 : ts1.bbox = temporals_make_bbox ts1.seqs)
    (hb2 : ts2.bbox = temporals_make_bbox ts2.seqs) :
    (temporals_eq ts1 ts2 = true ↔
      (ts1.seqs.length = ts2.seqs.length ∧ ts1.bbox = ts2.bbox ∧
        ts1.seqs = ts2.seqs)) ∧
    (temporals_eq ts1 ts2 = true ↔ temporals_cmp ts1 ts2 = 0) := by
  have heq : temporals_eq ts1 ts2 = true ↔
      (ts1.seqs.length = ts2.seqs.length ∧ ts1.bbox = ts2.bbox ∧
        ts1.seqs = ts2.seqs) := by
    unfold temporals_eq
    by_cases h1 : ts1.seqs.length ≠ ts2.seqs.length
    · rw [if_pos h1]
      refine iff_of_false (by simp) ?_
      rintro ⟨h, -, -⟩
      exact h1 h
    · rw [if_neg h1]
      push_neg at h1
      by_cases h2 : ts1.bbox ≠ ts2.bbox
      · rw [if_pos h2]
        refine iff_of_false (by simp) ?_
        rintro ⟨-, h, -⟩
        exact h2 h
      · rw [if_neg h2]
        push_neg at h2
        simp [h1, h2]
  refine ⟨heq, heq.trans ?_⟩
  unfold temporals_cmp
  constructor
  · rintro ⟨hl, -, hs⟩
    rw [if_neg (by
      rw [hs]
      push_neg
      exact (temporals_cmp_loop_eq_zero_iff ts2.seqs ts2.seqs rfl).mpr rfl)]
    rw [if_neg (by omega), if_neg (by omega)]
  · intro hc
    by_cases hz : temporals_cmp_loop ts1.seqs ts2.seqs ≠ 0
    · rw [if_pos hz] at hc
      exact absurd hc hz
    · rw [if_neg hz] at hc
      push_neg at hz
      have hlen : ts1.seqs.length = ts2.seqs.length := by
        by_cases ha : ts1.seqs.length < ts2.seqs.length
        · rw [if_pos ha] at hc
          exact absurd hc (by norm_num)
        · rw [if_neg ha] at hc
          by_cases hb : ts2.seqs.length < ts1.seqs.length
          · rw [if_pos hb] at hc
            exact absurd hc (by norm_num)
          · omega
      have hs : ts1.seqs = ts2.seqs :=
        (temporals_cmp_loop_eq_zero_iff ts1.seqs ts2.seqs hlen).mp hz
      exact ⟨hlen, by rw [hb1, hb2, hs], hs⟩

/-- The example sequence set of claim C1 equipped with its canonical
bounding box. -/
def exC7 : TemporalS := ⟨exC1.seqs, ⟨0, 0, 0, 50⟩⟩

/-- Witness for claim C7 at a canonically built concrete value. -/
theorem C7_eq_iff_cmp_zero_witness :
    exC7.bbox = temporals_make_bbox exC7.seqs ∧
    ((temporals_eq exC7 exC7 = true ↔
      (exC7.seqs.length = exC7.seqs.length ∧ exC7.bbox = exC7.bbox ∧
        exC7.seqs = exC7.seqs)) ∧
    (temporals_eq exC7 exC7 = true ↔ temporals_cmp exC7 exC7 = 0)) :=
  ⟨by decide, C7_eq_iff_cmp_zero exC7 exC7 (by decide) (by decide)⟩

/-- `temporals_timespan` (TemporalS.c lines 810-817): the bounding period
of a sequence set, from the first sequence's lower bound to the last
sequence's upper bound. -/
def temporals_timespan (ts : TemporalS) : Period :=
  ⟨(periodn ts.seqs 0).lower,
   (periodn ts.seqs (ts.seqs.length - 1)).upper,
   (periodn ts.seqs 0).lower_inc,
   (periodn ts.seqs (ts.seqs.length - 1)).upper_inc⟩

/-- Modelled from the spec: synchronize two overlapping sequences — both
results are defined over exactly the intersection of the two periods,
with the instants restricted to it; the `crossings` flag only adds
interpolated instants and never changes the result periods
(`synchronize_temporalseq_temporalseq` of `TemporalSeq.c`). -/
def synchronize_temporalseq_temporalseq (seq1 seq2 : TemporalSeq)
    (crossings : Bool) : Option (TemporalSeq × TemporalSeq) :=
  match intersection_period_period_internal seq1.period seq2.period with
  | none => none
  | some p =>
    some (⟨seq1.instants.filter (fun i => contains_period_timestamp_internal p i.t), p⟩,
          ⟨seq2.instants.filter (fun i => contains_period_timestamp_internal p i.t), p⟩)

/-- The dual-cursor merge walk of `synchronize_temporals_temporals`
(TemporalS.c lines 432-452), returning the accumulated pairs of
synchronized sequences. -/
def synchronize_temporals_walk :
    List TemporalSeq → List TemporalSeq → Bool → List (TemporalSeq × TemporalSeq)
  | seq1 :: r1, seq2 :: r2, crossings =>
    let rest :=
      if period_eq_internal seq1.period seq2.period then
        synchronize_temporals_walk r1 r2 crossings
      else if period_lt_internal seq1.period seq2.period then
        synchronize_temporals_walk r1 (seq2 :: r2) crossings
      else
        synchronize_temporals_walk (seq1 :: r1) r2 crossings
    match synchronize_temporalseq_temporalseq seq1 seq2 crossings with
    | some pr => pr :: rest
    | none => rest
  | _, _, _ => []
termination_by l1 l2 _ => l1.length + l2.length

/-- `synchronize_temporals_temporals` (TemporalS.c lines 416-467):
bounding-timespan test, merge walk, empty-result test, then rebuild of
the two aligned sequence sets with `normalize = false`. -/
def synchronize_temporals_temporals (ts1 ts2 : TemporalS) (crossings : Bool) :
    Except Unit (Option (TemporalS × TemporalS)) :=
  if !overlaps_period_period_internal (temporals_timespan ts1)
      (temporals_timespan ts2) then
    .ok none
  else
    let k := synchronize_temporals_walk ts1.seqs ts2.seqs crossings
    if k = [] then .ok none
    else
      match temporals_from_temporalseqarr (k.map Prod.fst) false,
            temporals_from_temporalseqarr (k.map Prod.snd) false with
      | .ok a, .ok b => .ok (some (a, b))
      | _, _ => .error ()

theorem synchronize_seq_periods {s1 s2 : TemporalSeq} {crossings : Bool}
    {pr : TemporalSeq × TemporalSeq}
    (h : synchronize_temporalseq_temporalseq s1 s2 crossings = some pr) :
    pr.1.period = pr.2.period := by
  unfold synchronize_temporalseq_temporalseq at h
  cases hi : intersection_period_period_internal s1.period s2.period with
  | none => rw [hi] at h; exact absurd h (by simp)
  | some p =>
    rw [hi] at h
    simp only [Option.some.injEq] at h
    rw [← h]

theorem synchronize_walk_periods :
    ∀ (n : Nat) (l1 l2 : List TemporalSeq) (crossings : Bool),
      l1.length + l2.length ≤ n →
      ∀ pr ∈ synchronize_temporals_walk l1 l2 crossings,
        pr.1.period = pr.2.period := by
  intro n
  induction n with
  | zero =>
    intro l1 l2 crossings hn pr hpr
    cases l1 with
    | nil => simp [synchronize_temporals_walk] at hpr
    | cons a as => simp at hn
  | succ m ih =>
    intro l1 l2 crossings hn pr hpr
    cases l1 with
    | nil => simp [synchronize_temporals_walk] at hpr
    | cons seq1 r1 =>
      cases l2 with
      | nil => simp [synchronize_temporals_walk] at hpr
      | cons seq2 r2 =>
        rw [synchronize_temporals_walk] at hpr
        have hrest : ∀ pr2 ∈ (if period_eq_internal seq1.period seq2.period then
              synchronize_temporals_walk r1 r2 crossings
            else if period_lt_internal seq1.period seq2.period then
              synchronize_temporals_walk r1 (seq2 :: r2) crossings
            else
              synchronize_temporals_walk (seq1 :: r1) r2 crossings),
            pr2.1.period = pr2.2.period := by
          intro pr2 hpr2
          split_ifs at hpr2 with he hlt
          · exact ih r1 r2 crossings (by simp at hn ⊢; omega) pr2 hpr2
          · exact ih r1 (seq2 :: r2) crossings (by simp at hn ⊢; omega) pr2 hpr2
          · exact ih (seq1 :: r1) r2 crossings (by simp at hn ⊢; omega) pr2 hpr2
        cases hs : synchronize_temporalseq_temporalseq seq1 seq2 crossings with
        | none =>
          rw [hs] at hpr
          dsimp only at hpr
          exact hrest pr hpr
        | some pr0 =>
          rw [hs] at hpr
          dsimp only at hpr
          rcases List.mem_cons.mp hpr with he | hm
          · rw [he]
            exact synchronize_seq_periods hs
          · exact hrest pr hm

/-- With `normalize = false` a successful construction packs exactly the
given sequences and their computed bounding box. -/
theorem constructor_ok_false_seqs {l : List TemporalSeq} {ts : TemporalS}
    (h : temporals_from_temporalseqarr l false = .ok ts) :
    ts.seqs = l ∧ ts.bbox = temporals_make_bbox l := by
  unfold temporals_from_temporalseqarr at h
  simp only [Bool.false_and, Bool.false_eq_true, if_false] at h
  split_ifs at h
  all_goals
    first
    | exact Except.noConfusion h
    | {
        simp only [Except.ok.injEq] at h
        rw [← h]
        exact ⟨rfl, rfl⟩ }

/-- Claim C3: the synchronization of two sequence sets reports no output
exactly when the bounding timespans do not overlap or the merge walk
produces no pair, and any produced pair of sets has equal sequence counts
with pairwise identical periods. -/
theorem C3_synchronize_shape (ts1 ts2 : TemporalS) (crossings : Bool) :
    (synchronize_temporals_temporals ts1 ts2 crossings = .ok none ↔
      (overlaps_period_period_internal (temporals_timespan ts1)
          (temporals_timespan ts2) = false ∨
        synchronize_temporals_walk ts1.seqs ts2.seqs crossings = [])) ∧
    (∀ a b, synchronize_temporals_temporals ts1 ts2 crossings = .ok (some (a, b)) →
      a.seqs.length = b.seqs.length ∧
      ∀ i : Nat, i < a.seqs.length → periodn a.seqs i = periodn b.seqs i) := by
  unfold synchronize_temporals_temporals
  by_cases hov : overlaps_period_period_internal (temporals_timespan ts1)
      (temporals_timespan ts2)
  · rw [if_neg (by simp [hov])]
    by_cases hk : synchronize_temporals_walk ts1.seqs ts2.seqs crossings = []
    · simp only [hk, if_pos rfl]
      constructor
      · simp [hov]
      · intro a b hab
        exact absurd hab (by simp)
    · simp only [if_neg hk]
      have hper : ∀ pr ∈ synchronize_temporals_walk ts1.seqs ts2.seqs crossings,
          pr.1.period = pr.2.period :=
        synchronize_walk_periods (ts1.seqs.length + ts2.seqs.length)
          ts1.seqs ts2.seqs crossings le_rfl
      cases hA : temporals_from_temporalseqarr
          ((synchronize_temporals_walk ts1.seqs ts2.seqs crossings).map Prod.fst) false with
      | error e =>
        constructor
        · refine iff_of_false (by simp) ?_
          rintro (hc | hc)
          · rw [hc] at hov; exact absurd hov (by simp)
          · exact hk hc
        · intro a b hab
          exact absurd hab (by simp)
      | ok a0 =>
        cases hB : temporals_from_temporalseqarr
            ((synchronize_temporals_walk ts1.seqs ts2.seqs crossings).map Prod.snd) false with
        | error e =>
          constructor
          · refine iff_of_false (by simp) ?_
            rintro (hc | hc)
            · rw [hc] at hov; exact absurd hov (by simp)
            · exact hk hc
          · intro a b hab
            exact absurd hab (by simp)
        | ok b0 =>
          constructor
          · refine iff_of_false (by simp) ?_
            rintro (hc | hc)
            · rw [hc] at hov; exact absurd hov (by simp)
            · exact hk hc
          · intro a b hab
            simp only [Except.ok.injEq, Option.some.injEq, Prod.mk.injEq] at hab
            obtain ⟨ha, hb⟩ := hab
            obtain ⟨hsA, -⟩ := constructor_ok_false_seqs hA
            obtain ⟨hsB, -⟩ := constructor_ok_false_seqs hB
            rw [← ha, ← hb]
            constructor
            · rw [hsA, hsB]
              simp
            · intro i hi
              rw [hsA] at hi
              simp only [List.length_map] at hi
              rw [hsA, hsB]
              unfold periodn seqarr_n
              rw [List.getD_eq_getElem?_getD, List.getD_eq_getElem?_getD]
              rw [List.getElem?_map, List.getElem?_map]
              simp only [List.getElem?_eq_getElem hi, Option.map_some',
                Option.getD_some]
              exact hper _ (List.getElem_mem hi)
  · rw [if_pos (by simp [hov])]
    refine ⟨⟨fun _ => Or.inl (by simpa using hov), fun _ => rfl⟩, ?_⟩
    intro a b hab
    exact absurd hab (by simp)

/-- Big-endian fixed-width byte encoding of a natural number (the
network byte order written by `pq_sendint`). -/
def encNat : Nat → Nat → List Nat
  | 0, _ => []
  | w + 1, n => encNat w (n / 256) ++ [n % 256]

/-- Big-endian byte decoding (the reading side of `pq_getmsgint`). -/
def decNat (bs : List Nat) : Nat :=
  bs.foldl (fun a b => a * 256 + b) 0

theorem encNat_length (w : Nat) : ∀ n, (encNat w n).length = w := by
  induction w with
  | zero => intro n; rfl
  | succ w ih => intro n; simp [encNat, ih]

theorem decNat_append_one (xs : List Nat) (b : Nat) :
    decNat (xs ++ [b]) = decNat xs * 256 + b := by
  unfold decNat
  rw [List.foldl_append]
  rfl

theorem decNat_encNat (w : Nat) : ∀ n, decNat (encNat w n) = n % 256 ^ w := by
  induction w with
  | zero => intro n; simp [encNat, decNat, Nat.mod_one]
  | succ w ih =>
    intro n
    rw [encNat, decNat_append_one, ih]
    have h : n % 256 ^ (w + 1) = n % 256 + 256 * (n / 256 % 256 ^ w) := by
      rw [pow_succ, mul_comm ((256 : Nat) ^ w) 256, Nat.mod_mul]
    omega

/-- 64-bit two's-complement encoding of a value or timestamp (the
fixed-width binary layout of the wire format). -/
def encInt64 (v : Int) : List Nat := encNat 8 (v % (2 ^ 64)).toNat

/-- 64-bit two's-complement decoding. -/
def decInt64 (bs : List Nat) : Int :=
  if decNat bs < 2 ^ 63 then (decNat bs : Int) else (decNat bs : Int) - 2 ^ 64

theorem encInt64_length (v : Int) : (encInt64 v).length = 8 :=
  encNat_length 8 _

theorem decInt64_encInt64 (v : Int) (h1 : -(2 ^ 63) ≤ v) (h2 : v < 2 ^ 63) :
    decInt64 (encInt64 v) = v := by
  unfold decInt64 encInt64
  have h3 : 0 ≤ v % (2 ^ 64) := Int.emod_nonneg v (by norm_num)
  have h4 : v % (2 ^ 64) < 2 ^ 64 := Int.emod_lt_of_pos v (by norm_num)
  rw [decNat_encNat]
  have hpow : (256 : Nat) ^ 8 = 2 ^ 64 := by norm_num
  have h5 : (v % (2 ^ 64)).toNat % 256 ^ 8 = (v % (2 ^ 64)).toNat := by
    apply Nat.mod_eq_of_lt
    rw [hpow]
    omega
  rw [h5]
  rcases le_or_lt 0 v with hv | hv
  · have he : v % (2 ^ 64) = v := Int.emod_eq_of_lt hv (by omega)
    rw [if_pos (by omega)]
    omega
  · have he : v % (2 ^ 64) = v + 2 ^ 64 := by omega
    rw [if_neg (by omega)]
    omega

/-- Modelled from the spec: the wire form of one instant — its value and
its timestamp as fixed-width 8-byte integers. -/
def temporalinst_write (i : TemporalInst) : List Nat :=
  encInt64 i.value ++ encInt64 i.t

/-- Modelled from the spec: read one instant from the byte stream. -/
def temporalinst_read (bs : List Nat) : Option (TemporalInst × List Nat) :=
  if 16 ≤ bs.length then
    some (⟨decInt64 (bs.take 8), decInt64 ((bs.drop 8).take 8)⟩, bs.drop 16)
  else none

/-- Read a given number of instants from the byte stream. -/
def temporalinst_read_list : Nat → List Nat → Option (List TemporalInst × List Nat)
  | 0, bs => some ([], bs)
  | k + 1, bs =>
    match temporalinst_read bs with
    | some (i, rest) =>
      match temporalinst_read_list k rest with
      | some (is, rest2) => some (i :: is, rest2)
      | none => none
    | none => none

/-- Modelled from the spec: `temporalseq_write` of `TemporalSeq.c` — the
sequence is self-delimited: its instant count, its period's two bound
flags, then the instant encodings back-to-back. -/
def temporalseq_write (s : TemporalSeq) : List Nat :=
  encNat 4 s.instants.length ++
  [if s.period.lower_inc then 1 else 0, if s.period.upper_inc then 1 else 0] ++
  (s.instants.map temporalinst_write).flatten

/-- Modelled from the spec: `temporalseq_read` of `TemporalSeq.c` — read
the count, the bound flags and the instants, rebuilding the period from
the first and last instant timestamps (the sequence invariant). -/
def temporalseq_read (bs : List Nat) : Option (TemporalSeq × List Nat) :=
  if 6 ≤ bs.length then
    match temporalinst_read_list (decNat (bs.take 4)) (bs.drop 6) with
    | some (is, rest) =>
      some (⟨is, ⟨(is.headD default).t, (is.getLastD default).t,
        ((bs.drop 4).take 2).getD 0 0 == 1,
        ((bs.drop 4).take 2).getD 1 0 == 1⟩⟩, rest)
    | none => none
  else none

/-- Read a given number of sequences from the byte stream. -/
def temporalseq_read_list : Nat → List Nat → Option (List TemporalSeq × List Nat)
  | 0, bs => some ([], bs)
  | k + 1, bs =>
    match temporalseq_read bs with
    | some (s, rest) =>
      match temporalseq_read_list k rest with
      | some (ss, rest2) => some (s :: ss, rest2)
      | none => none
    | none => none

/-- `temporals_write` (TemporalS.c lines 507-516): the sequence count as
a 4-byte integer followed by the sequence encodings back-to-back. -/
def temporals_write (ts : TemporalS) : List Nat :=
  encNat 4 ts.seqs.length ++ (ts.seqs.map temporalseq_write).flatten

/-- `temporals_read` (TemporalS.c lines 520-534): read the count, read
that many sequences, and rebuild through the constructor with
`normalize = false`. -/
def temporals_read (bs : List Nat) : Except Unit TemporalS :=
  if 4 ≤ bs.length then
    match temporalseq_read_list (decNat (bs.take 4)) (bs.drop 4) with
    | some (ss, _) => temporals_from_temporalseqarr ss false
    | none => .error ()
  else .error ()

/-- The quantities of a sequence set that must fit the fixed wire
widths, together with the per-sequence bounds invariant the decoder
relies on. -/
def temporals_wire_ok (ts : TemporalS) : Prop :=
  ts.seqs.length < 2 ^ 32 ∧
  ∀ s ∈ ts.seqs, s.instants.length < 2 ^ 32 ∧ s.instants ≠ [] ∧
    s.period.lower = (s.instants.headD default).t ∧
    s.period.upper = (s.instants.getLastD default).t ∧
    ∀ i ∈ s.instants, -(2 ^ 63) ≤ i.value ∧ i.value < 2 ^ 63 ∧
      -(2 ^ 63) ≤ i.t ∧ i.t < 2 ^ 63

instance (ts : TemporalS) : Decidable (temporals_wire_ok ts) := by
  unfold temporals_wire_ok; infer_instance

theorem temporalinst_read_write (i : TemporalInst) (rest : List Nat)
    (h1 : -(2 ^ 63) ≤ i.value) (h2 : i.value < 2 ^ 63)
    (h3 : -(2 ^ 63) ≤ i.t) (h4 : i.t < 2 ^ 63) :
    temporalinst_read (temporalinst_write i ++ rest) = some (i, rest) := by
  have e1 : (temporalinst_write i ++ rest).take 8 = encInt64 i.value := by
    unfold temporalinst_write
    rw [List.append_assoc]
    exact List.take_left' (encInt64_length _)
  have e2 : (temporalinst_write i ++ rest).drop 8 = encInt64 i.t ++ rest := by
    unfold temporalinst_write
    rw [List.append_assoc]
    exact List.drop_left' (encInt64_length _)
  have e3 : ((temporalinst_write i ++ rest).drop 8).take 8 = encInt64 i.t := by
    rw [e2]
    exact List.take_left' (encInt64_length _)
  have e4 : (temporalinst_write i ++ rest).drop 16 = rest := by
    unfold temporalinst_write
    exact List.drop_left' (by simp [encInt64_length])
  have hlen : 16 ≤ (temporalinst_write i ++ rest).length := by
    unfold temporalinst_write
    simp [encInt64_length]
    omega
  unfold temporalinst_read
  rw [if_pos hlen, e1, e3, e4, decInt64_encInt64 _ h1 h2,
    decInt64_encInt64 _ h3 h4]

theorem temporalinst_read_list_write (is : List TemporalInst) (rest : List Nat)
    (h : ∀ i ∈ is, -(2 ^ 63) ≤ i.value ∧ i.value < 2 ^ 63 ∧
      -(2 ^ 63) ≤ i.t ∧ i.t < 2 ^ 63) :
    temporalinst_read_list is.length
      ((is.map temporalinst_write).flatten ++ rest) = some (is, rest) := by
  induction is with
  | nil => simp [temporalinst_read_list]
  | cons i is2 ih =>
    rw [List.length_cons, temporalinst_read_list]
    have hw : ((i :: is2).map temporalinst_write).flatten ++ rest =
        temporalinst_write i ++ ((is2.map temporalinst_write).flatten ++ rest) := by
      simp
    rw [hw]
    obtain ⟨g1, g2, g3, g4⟩ := h i (by simp)
    rw [temporalinst_read_write i _ g1 g2 g3 g4]
    dsimp only
    rw [ih (fun j hj => h j (List.mem_cons_of_mem _ hj))]

theorem temporalseq_read_write (s : TemporalSeq) (rest : List Nat)
    (hne : s.instants ≠ [])
    (hcnt : s.instants.length < 2 ^ 32)
    (hlow : s.period.lower = (s.instants.headD default).t)
    (hup : s.period.upper = (s.instants.getLastD default).t)
    (hrange : ∀ i ∈ s.instants, -(2 ^ 63) ≤ i.value ∧ i.value < 2 ^ 63 ∧
      -(2 ^ 63) ≤ i.t ∧ i.t < 2 ^ 63) :
    temporalseq_read (temporalseq_write s ++ rest) = some (s, rest) := by
  have hassoc : temporalseq_write s ++ rest =
      encNat 4 s.instants.length ++
        (([if s.period.lower_inc then 1 else 0,
           if s.period.upper_inc then 1 else 0] : List Nat) ++
          (((s.instants.map temporalinst_write).flatten) ++ rest)) := by
    unfold temporalseq_write
    simp [List.append_assoc]
  have e1 : (temporalseq_write s ++ rest).take 4 = encNat 4 s.instants.length := by
    rw [hassoc]
    exact List.take_left' (encNat_length 4 _)
  have e2 : (temporalseq_write s ++ rest).drop 4 =
      ([if s.period.lower_inc then 1 else 0,
        if s.period.upper_inc then 1 else 0] : List Nat) ++
        (((s.instants.map temporalinst_write).flatten) ++ rest) := by
    rw [hassoc]
    exact List.drop_left' (encNat_length 4 _)
  have e3 : ((temporalseq_write s ++ rest).drop 4).take 2 =
      ([if s.period.lower_inc then 1 else 0,
        if s.period.upper_inc then 1 else 0] : List Nat) := by
    rw [e2]
    exact List.take_left' rfl
  have e4 : (temporalseq_write s ++ rest).drop 6 =
      ((s.instants.map temporalinst_write).flatten) ++ rest := by
    have h2 : temporalseq_write s ++ rest =
        (encNat 4 s.instants.length ++
          ([if s.period.lower_inc then 1 else 0,
            if s.period.upper_inc then 1 else 0] : List Nat)) ++
          (((s.instants.map temporalinst_write).flatten) ++ rest) := by
      unfold temporalseq_write
      simp [List.append_assoc]
    rw [h2]
    exact List.drop_left' (by simp [encNat_length])
  have hlen : 6 ≤ (temporalseq_write s ++ rest).length := by
    unfold temporalseq_write
    simp [encNat_length]
    omega
  have hdec : decNat (encNat 4 s.instants.length) = s.instants.length := by
    rw [decNat_encNat]
    apply Nat.mod_eq_of_lt
    have : (256 : Nat) ^ 4 = 2 ^ 32 := by norm_num
    omega
  unfold temporalseq_read
  rw [if_pos hlen, e1, hdec, e4, e3,
    temporalinst_read_list_write s.instants rest hrange]
  dsimp only
  have hflag1 : (((if s.period.lower_inc then (1 : Nat) else 0) :: [if s.period.upper_inc then (1 : Nat) else 0]).getD 0 0 == 1) = s.period.lower_inc := by
    cases s.period.lower_inc <;> rfl
  have hflag2 : (((if s.period.lower_inc then (1 : Nat) else 0) :: [if s.period.upper_inc then (1 : Nat) else 0]).getD 1 0 == 1) = s.period.upper_inc := by
    cases s.period.upper_inc <;> rfl
  rw [hflag1, hflag2, ← hlow, ← hup]

theorem temporalseq_read_list_write (ss : List TemporalSeq) (rest : List Nat)
    (h : ∀ s ∈ ss, s.instants.length < 2 ^ 32 ∧ s.instants ≠ [] ∧
      s.period.lower = (s.instants.headD default).t ∧
      s.period.upper = (s.instants.getLastD default).t ∧
      ∀ i ∈ s.instants, -(2 ^ 63) ≤ i.value ∧ i.value < 2 ^ 63 ∧
        -(2 ^ 63) ≤ i.t ∧ i.t < 2 ^ 63) :
    temporalseq_read_list ss.length
      ((ss.map temporalseq_write).flatten ++ rest) = some (ss, rest) := by
  induction ss with
  | nil => simp [temporalseq_read_list]
  | cons s ss2 ih =>
    rw [List.length_cons, temporalseq_read_list]
    have hw : ((s :: ss2).map temporalseq_write).flatten ++ rest =
        temporalseq_write s ++ ((ss2.map temporalseq_write).flatten ++ rest) := by
      simp
    rw [hw]
    obtain ⟨g1, g2, g3, g4, g5⟩ := h s (by simp)
    rw [temporalseq_read_write s _ g2 g1 g3 g4 g5]
    dsimp only
    rw [ih (fun x hx => h x (List.mem_cons_of_mem _ hx))]

theorem seqarr_ok_of_sep {l : List TemporalSeq} (hsep : seqlist_sep l) :
    temporals_seqarr_ok l = true := by
  rw [temporals_seqarr_ok_iff]
  intro i hi hinv
  rcases hsep i hi with h | ⟨he, hn⟩
  · rcases hinv with h2 | ⟨h2, -⟩ <;> omega
  · rcases hinv with h2 | ⟨-, h2a, h2b⟩
    · omega
    · exact hn ⟨h2a, h2b⟩

/-- On a nonempty list that passes the pair scan, construction with
`normalize = false` packs the sequences unchanged with their box. -/
theorem constructor_false_ok_of_valid {l : List TemporalSeq}
    (hlen : 1 ≤ l.length) (hok : temporals_seqarr_ok l = true) :
    temporals_from_temporalseqarr l false = .ok ⟨l, temporals_make_bbox l⟩ := by
  unfold temporals_from_temporalseqarr
  rw [if_neg (by omega), if_neg (by simp [hok])]
  simp only [Bool.false_and, Bool.false_eq_true, if_false]

/-- Claim C8: for a valid, canonically boxed sequence set whose counts
and payloads fit the wire widths, decoding the serialized form
reconstructs the value exactly, and re-encoding any decoded value
reproduces the byte stream. -/
theorem C8_serialization_roundtrip (ts : TemporalS)
    (hv : temporals_valid ts)
    (hbbox : ts.bbox = temporals_make_bbox ts.seqs)
    (hwire : temporals_wire_ok ts) :
    temporals_read (temporals_write ts) = .ok ts ∧
    (∀ y, temporals_read (temporals_write ts) = .ok y →
      temporals_write y = temporals_write ts) := by
  obtain ⟨hlen, hwf, hsep⟩ := hv
  obtain ⟨hcnt, hseqs⟩ := hwire
  have e1 : (temporals_write ts).take 4 = encNat 4 ts.seqs.length := by
    unfold temporals_write
    exact List.take_left' (encNat_length 4 _)
  have e2 : (temporals_write ts).drop 4 = (ts.seqs.map temporalseq_write).flatten := by
    unfold temporals_write
    exact List.drop_left' (encNat_length 4 _)
  have hlen4 : 4 ≤ (temporals_write ts).length := by
    unfold temporals_write
    simp [encNat_length]
  have hdec : decNat (encNat 4 ts.seqs.length) = ts.seqs.length := by
    rw [decNat_encNat]
    apply Nat.mod_eq_of_lt
    have : (256 : Nat) ^ 4 = 2 ^ 32 := by norm_num
    omega
  have hrl : temporalseq_read_list ts.seqs.length
      ((ts.seqs.map temporalseq_write).flatten ++ []) = some (ts.seqs, []) :=
    temporalseq_read_list_write ts.seqs [] hseqs
  rw [List.append_nil] at hrl
  have hmain : temporals_read (temporals_write ts) = .ok ts := by
    unfold temporals_read
    rw [if_pos hlen4, e1, hdec, e2, hrl]
    dsimp only
    rw [constructor_false_ok_of_valid hlen (seqarr_ok_of_sep hsep)]
    cases ts with
    | mk seqs bbox =>
      simp only at hbbox
      rw [hbbox]
  exact ⟨hmain, fun y hy => by
    rw [hmain] at hy
    simp only [Except.ok.injEq] at hy
    rw [hy]⟩

/-- A valid two-sequence set with canonical box, used as the round-trip
witness. -/
def exC8 : TemporalS :=
  ⟨[⟨[⟨3, 0⟩, ⟨5, 10⟩], ⟨0, 10, true, true⟩⟩,
    ⟨[⟨-4, 20⟩, ⟨6, 30⟩], ⟨20, 30, false, true⟩⟩], ⟨-4, 6, 0, 30⟩⟩

/-- Witness for claim C8 at a concrete two-sequence set. -/
theorem C8_serialization_roundtrip_witness :
    (temporals_valid exC8 ∧ exC8.bbox = temporals_make_bbox exC8.seqs ∧
      temporals_wire_ok exC8) ∧
    (temporals_read (temporals_write exC8) = .ok exC8 ∧
      (∀ y, temporals_read (temporals_write exC8) = .ok y →
        temporals_write y = temporals_write exC8)) :=
  ⟨⟨by decide, by decide, by decide⟩,
   C8_serialization_roundtrip exC8 (by decide) (by decide) (by decide)⟩

/-- The separation relation between adjacent sequences, as used by the
constructor's validity scan. -/
def seqsep (a b : TemporalSeq) : Prop := seqpair_sep a.period b.period

instance : DecidableRel seqsep := by
  unfold seqsep
  infer_instance

theorem seqlist_sep_cons_cons (a b : TemporalSeq) (t : List TemporalSeq) :
    seqlist_sep (a :: b :: t) ↔
      seqpair_sep a.period b.period ∧ seqlist_sep (b :: t) := by
  constructor
  · intro h
    refine ⟨h 0 (by simp), ?_⟩
    intro i hi
    have := h (i + 1) (by simp at hi ⊢; omega)
    exact this
  · rintro ⟨h0, h⟩ i hi
    cases i with
    | zero => exact h0
    | succ j =>
      exact h j (by simp at hi ⊢; omega)

theorem seqlist_sep_iff_chain (l : List TemporalSeq) :
    seqlist_sep l ↔ List.Chain' seqsep l := by
  induction l with
  | nil =>
    refine iff_of_true (fun i hi => absurd hi (by simp)) List.chain'_nil
  | cons a t ih =>
    cases t with
    | nil =>
      refine iff_of_true (fun i hi => absurd hi (by simp)) (List.chain'_singleton a)
    | cons b t2 =>
      rw [seqlist_sep_cons_cons, ih, List.chain'_cons]
      exact Iff.rfl

/-- The boundary fix-up applied while collecting the per-sequence
min/max restriction fragments (TemporalS.c lines 1525-1540): append the
next group of fragments; if its first fragment abuts the previously
collected fragment at an equal timestamp with both touching bounds
inclusive, the previous fragment's upper bound is first made exclusive. -/
def minmax_fixup_append (acc g : List TemporalSeq) : List TemporalSeq :=
  match g, acc.getLast? with
  | c :: _, some prev =>
    if prev.period.upper = c.period.lower ∧ prev.period.upper_inc = true ∧
        c.period.lower_inc = true then
      acc.dropLast ++
        [⟨prev.instants, ⟨prev.period.lower, prev.period.upper,
          prev.period.lower_inc, false⟩⟩] ++ g
    else acc ++ g
  | _, _ => acc ++ g

/-- The collection phase of `temporals_at_minmax` over the per-sequence
restriction results. -/
def temporals_at_minmax_collect (frags : List (List TemporalSeq)) :
    List TemporalSeq :=
  frags.foldl minmax_fixup_append []

theorem minmax_fixup_append_nil (acc : List TemporalSeq) :
    minmax_fixup_append acc [] = acc := by
  unfold minmax_fixup_append
  cases acc.getLast? <;> simp

theorem minmax_fixup_append_spec (acc g : List TemporalSeq)
    (hacc : List.Chain' seqsep acc)
    (hg : List.Chain' seqsep g)
    (hcross : ∀ prev, acc.getLast? = some prev → g ≠ [] →
      prev.period.upper ≤ (g.headD default).period.lower) :
    List.Chain' seqsep (minmax_fixup_append acc g) ∧
    (minmax_fixup_append acc g).length = acc.length + g.length ∧
    (minmax_fixup_append acc g).getLast? =
      (if g = [] then acc.getLast? else g.getLast?) := by
  cases g with
  | nil =>
    rw [minmax_fixup_append_nil]
    simp [hacc]
  | cons c g2 =>
    unfold minmax_fixup_append
    cases hl : acc.getLast? with
    | none =>
      have hanil : acc = [] := List.getLast?_eq_none_iff.mp hl
      subst hanil
      simp [hg]
    | some prev =>
      dsimp only
      have hanil : acc ≠ [] := by
        intro h
        subst h
        simp at hl
      have hdrop : acc.dropLast ++ [prev] = acc :=
        List.dropLast_append_getLast? prev hl
      have hcross2 : prev.period.upper ≤ c.period.lower :=
        hcross prev hl (by simp)
      by_cases hcond : prev.period.upper = c.period.lower ∧
          prev.period.upper_inc = true ∧ c.period.lower_inc = true
      · rw [if_pos hcond]
        obtain ⟨hce, hcu, hcl⟩ := hcond
        have hfix : ∀ x : TemporalSeq,
            seqsep x (⟨prev.instants, ⟨prev.period.lower, prev.period.upper,
              prev.period.lower_inc, false⟩⟩ : TemporalSeq) ↔ seqsep x prev := by
          intro x
          exact Iff.rfl
        have hchain1 : List.Chain' seqsep (acc.dropLast ++
            [(⟨prev.instants, ⟨prev.period.lower, prev.period.upper,
              prev.period.lower_inc, false⟩⟩ : TemporalSeq)]) := by
          rw [List.chain'_append]
          have hacc2 := hacc
          rw [← hdrop, List.chain'_append] at hacc2
          refine ⟨hacc2.1, List.chain'_singleton _, ?_⟩
          intro x hx y hy
          simp only [List.head?_cons, Option.mem_def, Option.some.injEq] at hy
          rw [← hy]
          rw [hfix x]
          exact hacc2.2.2 x hx prev (by simp)
        refine ⟨?_, ?_, ?_⟩
        · rw [List.chain'_append]
          refine ⟨hchain1, hg, ?_⟩
          intro x hx y hy
          rw [List.getLast?_append_of_ne_nil _ (by simp)] at hx
          simp only [List.getLast?_singleton, Option.mem_def, Option.some.injEq] at hx
          simp only [List.head?_cons, Option.mem_def, Option.some.injEq] at hy
          rw [← hx, ← hy]
          right
          exact ⟨hce, by simp⟩
        · have : acc.dropLast.length + 1 = acc.length := by
            rw [← hdrop]
            simp
          simp only [List.length_append, List.length_cons, List.length_nil]
          omega
        · rw [if_neg (by simp)]
          rw [List.append_assoc]
          rw [List.getLast?_append_of_ne_nil _ (by simp)]
          rw [List.getLast?_append_of_ne_nil _ (by simp)]
      · rw [if_neg hcond]
        refine ⟨?_, by simp, ?_⟩
        · rw [List.chain'_append]
          refine ⟨hacc, hg, ?_⟩
          intro x hx y hy
          rw [hl] at hx
          simp only [Option.mem_def, Option.some.injEq] at hx
          simp only [List.head?_cons, Option.mem_def, Option.some.injEq] at hy
          rw [← hx, ← hy]
          rcases lt_or_eq_of_le hcross2 with hlt | he
          · exact Or.inl hlt
          · right
            refine ⟨he, ?_⟩
            intro ⟨h1, h2⟩
            exact hcond ⟨he, h1, h2⟩
        · rw [if_neg (by simp)]
          exact List.getLast?_append_of_ne_nil _ (by simp)

theorem minmax_collect_step (g : List (List TemporalSeq)) (acc : List TemporalSeq)
    (gr : List TemporalSeq) :
    List.foldl minmax_fixup_append acc (gr :: g) =
      List.foldl minmax_fixup_append (minmax_fixup_append acc gr) g := rfl

theorem minmax_collect_spec :
    ∀ (ws : List Period) (gs : List (List TemporalSeq)) (acc : List TemporalSeq),
    gs.length = ws.length →
    (∀ j k : Nat, j < k → k < ws.length →
      (ws.getD j default).upper ≤ (ws.getD k default).lower) →
    (∀ k, k < ws.length → ∀ f ∈ gs.getD k [],
      (ws.getD k default).lower ≤ f.period.lower ∧
      f.period.lower ≤ f.period.upper ∧
      f.period.upper ≤ (ws.getD k default).upper) →
    (∀ k, k < ws.length → List.Chain' seqsep (gs.getD k [])) →
    List.Chain' seqsep acc →
    (∀ prev, acc.getLast? = some prev → ∀ k, k < ws.length →
      prev.period.upper ≤ (ws.getD k default).lower) →
    List.Chain' seqsep (List.foldl minmax_fixup_append acc gs) ∧
    (List.foldl minmax_fixup_append acc gs).length =
      acc.length + (gs.map List.length).sum := by
  intro ws
  induction ws with
  | nil =>
    intro gs acc hlen hglobal hwin hchain hacc hbound
    have : gs = [] := List.length_eq_zero.mp (by simpa using hlen)
    subst this
    simpa using hacc
  | cons W ws2 ih =>
    intro gs acc hlen hglobal hwin hchain hacc hbound
    cases gs with
    | nil => simp at hlen
    | cons g gs2 =>
      rw [minmax_collect_step]
      have hg : List.Chain' seqsep g := hchain 0 (by simp)
      have hginw := hwin 0 (by simp)
      have hcross : ∀ prev, acc.getLast? = some prev → g ≠ [] →
          prev.period.upper ≤ (g.headD default).period.lower := by
        intro prev hp hgne
        have h1 : prev.period.upper ≤ W.lower := hbound prev hp 0 (by simp)
        have h2 : (g.headD default) ∈ g := by
          cases g with
          | nil => exact absurd rfl hgne
          | cons c g2 => simp
        have h3 := hginw _ h2
        calc prev.period.upper ≤ W.lower := h1
          _ ≤ (g.headD default).period.lower := h3.1
      obtain ⟨hchain', hlen', hlast'⟩ := minmax_fixup_append_spec acc g hacc hg hcross
      have step := ih gs2 (minmax_fixup_append acc g)
        (by simpa using hlen)
        (fun j k hj hk => hglobal (j + 1) (k + 1) (by omega) (by simpa using hk))
        (fun k hk f hf => hwin (k + 1) (by simpa using hk) f hf)
        (fun k hk => hchain (k + 1) (by simpa using hk))
        hchain'
        ?_
      · refine ⟨step.1, ?_⟩
        rw [step.2, hlen']
        simp only [List.map_cons, List.sum_cons]
        omega
      · intro prev hp k hk
        rw [hlast'] at hp
        by_cases hgnil : g = []
        · rw [if_pos hgnil] at hp
          exact hbound prev hp (k + 1) (by simpa using hk)
        · rw [if_neg hgnil] at hp
          have hmem : prev ∈ g := List.mem_of_mem_getLast? hp
          have h3 := hginw prev hmem
          have h4 : W.upper ≤ (ws2.getD k default).lower :=
            hglobal 0 (k + 1) (by omega) (by simpa using hk)
          calc prev.period.upper ≤ W.upper := h3.2.2
            _ ≤ (ws2.getD k default).lower := h4

theorem periodn_eq_map_getD (base : List TemporalSeq) (k : Nat)
    (hk : k < base.length) :
    (base.map (fun s => s.period)).getD k default = periodn base k := by
  unfold periodn seqarr_n
  rw [List.getD_eq_getElem?_getD, List.getD_eq_getElem?_getD, List.getElem?_map,
    List.getElem?_eq_getElem hk]
  rfl

theorem constructor_ok_of_valid {l : List TemporalSeq} (hlen : 1 ≤ l.length)
    (hok : temporals_seqarr_ok l = true) (normalize : Bool) :
    ∃ r, temporals_from_temporalseqarr l normalize = .ok r := by
  unfold temporals_from_temporalseqarr
  rw [if_neg (by omega), if_neg (by simp [hok])]
  exact ⟨_, rfl⟩

/-- Claim C6: the min/max restriction fragments — computed against
closed-bounds copies of the base sequences, hence lying inside the
closed base periods, internally separated per sequence — always pass
the constructor's validity check after the boundary fix-up: the
collected list is separated, nonempty, and construction succeeds. -/
theorem C6_at_minmax_fragments_valid (base : List TemporalSeq)
    (frags : List (List TemporalSeq))
    (hwf : seqlist_wf base) (hsep : seqlist_sep base)
    (hlen : frags.length = base.length)
    (hwin : ∀ k, k < frags.length → ∀ f ∈ frags.getD k [],
        period_valid f.period ∧
        (periodn base k).lower ≤ f.period.lower ∧
        f.period.upper ≤ (periodn base k).upper)
    (hchain : ∀ k, k < frags.length → seqlist_sep (frags.getD k []))
    (hne : ∃ k, k < frags.length ∧ frags.getD k [] ≠ []) :
    seqlist_sep (temporals_at_minmax_collect frags) ∧
    1 ≤ (temporals_at_minmax_collect frags).length ∧
    ∃ r, temporals_from_temporalseqarr (temporals_at_minmax_collect frags)
      true = .ok r := by
  have hwsl : frags.length = (base.map (fun s => s.period)).length := by
    simpa using hlen
  have hspec := minmax_collect_spec (base.map (fun s => s.period)) frags []
    hwsl
    (by
      intro j k hj hk
      simp only [List.length_map] at hk
      rw [periodn_eq_map_getD base j (by omega), periodn_eq_map_getD base k hk]
      exact chain_of_lt hwf hsep hj hk)
    (by
      intro k hk f hf
      simp only [List.length_map] at hk
      rw [periodn_eq_map_getD base k hk]
      obtain ⟨hv, hl, hu⟩ := hwin k (by omega) f hf
      exact ⟨hl, hv.1, hu⟩)
    (by
      intro k hk
      rw [← seqlist_sep_iff_chain]
      simp only [List.length_map] at hk
      exact hchain k (by omega))
    List.chain'_nil
    (by
      intro prev hp
      simp at hp)
  have hsum : 1 ≤ (frags.map List.length).sum := by
    obtain ⟨k, hk, hkne⟩ := hne
    have h1 : frags.getD k [] = frags[k] := by
      rw [List.getD_eq_getElem?_getD, List.getElem?_eq_getElem hk]
      rfl
    have h2 : frags[k].length ∈ frags.map List.length :=
      List.mem_map_of_mem List.length (List.getElem_mem hk)
    have h3 : 1 ≤ frags[k].length := by
      rw [h1] at hkne
      exact List.length_pos.mpr hkne
    calc 1 ≤ frags[k].length := h3
      _ ≤ (frags.map List.length).sum :=
        List.single_le_sum (fun x _ => Nat.zero_le x) _ h2
  have hc : List.Chain' seqsep (temporals_at_minmax_collect frags) := hspec.1
  have hl : (temporals_at_minmax_collect frags).length =
      (frags.map List.length).sum := by
    have := hspec.2
    simpa [temporals_at_minmax_collect] using this
  have hs : seqlist_sep (temporals_at_minmax_collect frags) :=
    (seqlist_sep_iff_chain _).mpr hc
  refine ⟨hs, by omega, ?_⟩
  exact constructor_ok_of_valid (by omega) (seqarr_ok_of_sep hs) true

/-- The base sequences of the C6 witness: values 1 and 2 on `[0,10]`
(upper inclusive) and `(10,20]`. -/
def exC6base : List TemporalSeq :=
  [⟨[⟨1, 0⟩, ⟨1, 10⟩], ⟨0, 10, true, true⟩⟩,
   ⟨[⟨2, 10⟩, ⟨2, 20⟩], ⟨10, 20, false, true⟩⟩]

/-- Fragment groups computed against closed-bounds copies: the second
group's first fragment starts at 10, inclusively, abutting the first
group's fragment that ends at 10 inclusively — the fix-up case. -/
def exC6frags : List (List TemporalSeq) :=
  [[⟨[⟨1, 8⟩, ⟨1, 10⟩], ⟨8, 10, true, true⟩⟩],
   [⟨[⟨2, 10⟩, ⟨2, 12⟩], ⟨10, 12, true, true⟩⟩]]

/-- Witness for claim C6 at concrete fragments that trigger the
boundary fix-up. -/
theorem C6_at_minmax_fragments_valid_witness :
    (seqlist_wf exC6base ∧ seqlist_sep exC6base ∧
      exC6frags.length = exC6base.length ∧
      (∀ k, k < exC6frags.length → ∀ f ∈ exC6frags.getD k [],
        period_valid f.period ∧
        (periodn exC6base k).lower ≤ f.period.lower ∧
        f.period.upper ≤ (periodn exC6base k).upper) ∧
      (∀ k, k < exC6frags.length → seqlist_sep (exC6frags.getD k [])) ∧
      (∃ k, k < exC6frags.length ∧ exC6frags.getD k [] ≠ [])) ∧
    (seqlist_sep (temporals_at_minmax_collect exC6frags) ∧
      1 ≤ (temporals_at_minmax_collect exC6frags).length ∧
      ∃ r, temporals_from_temporalseqarr (temporals_at_minmax_collect exC6frags)
        true = .ok r) :=
  ⟨⟨by decide, by decide, by decide, by decide, by decide,
    ⟨0, by decide, by decide⟩⟩,
   C6_at_minmax_fragments_valid exC6base exC6frags (by decide) (by decide)
     (by decide) (by decide) (by decide) ⟨0, by decide, by decide⟩⟩

/-! ## Pointwise period algebra, for the restriction partition claim -/

theorem contains_pp_mono {P q : Period} (h : contains_period_period_internal P q = true)
    {t : Int} (hm : period_mem q t) : period_mem P t := by
  unfold contains_period_period_internal at h
  unfold period_mem at hm ⊢
  cases hpl : P.lower_inc <;> cases hpu : P.upper_inc <;>
    cases hql : q.lower_inc <;> cases hqu : q.upper_inc <;>
      simp [hpl, hpu, hql, hqu] at h hm ⊢ <;> omega

theorem not_overlaps_disjoint {p q : Period}
    (h : overlaps_period_period_internal p q = false) {t : Int}
    (hp : period_mem p t) (hq : period_mem q t) : False := by
  unfold overlaps_period_period_internal at h
  unfold period_mem at hp hq
  cases hpl : p.lower_inc <;> cases hpu : p.upper_inc <;>
    cases hql : q.lower_inc <;> cases hqu : q.upper_inc <;>
      simp [hpl, hpu, hql, hqu] at h hp hq <;> omega

/-- Membership to the right of a lower bound. -/
def after_low (l : Int) (inc : Bool) (t : Int) : Prop :=
  l < t ∨ (l = t ∧ inc = true)

/-- Membership to the left of an upper bound. -/
def before_up (u : Int) (inc : Bool) (t : Int) : Prop :=
  t < u ∨ (t = u ∧ inc = true)

theorem period_mem_iff (p : Period) (t : Int) :
    period_mem p t ↔
      after_low p.lower p.lower_inc t ∧ before_up p.upper p.upper_inc t :=
  Iff.rfl

theorem max_low_spec {a b t : Int} {ai bi : Bool} :
    after_low (if a > b then (a, ai) else if a < b then (b, bi) else (a, ai && bi)).1
      (if a > b then (a, ai) else if a < b then (b, bi) else (a, ai && bi)).2 t ↔
    (after_low a ai t ∧ after_low b bi t) := by
  by_cases h1 : a > b
  · rw [if_pos h1]
    unfold after_low
    constructor
    · intro h
      exact ⟨h, Or.inl (by rcases h with h | ⟨h, -⟩ <;> omega)⟩
    · exact fun h => h.1
  · rw [if_neg h1]
    by_cases h2 : a < b
    · rw [if_pos h2]
      unfold after_low
      constructor
      · intro h
        exact ⟨Or.inl (by rcases h with h | ⟨h, -⟩ <;> omega), h⟩
      · exact fun h => h.2
    · rw [if_neg h2]
      have he : a = b := by omega
      subst he
      unfold after_low
      constructor
      · rintro (h | ⟨he2, hi⟩)
        · exact ⟨Or.inl h, Or.inl h⟩
        · simp only [Bool.and_eq_true] at hi
          exact ⟨Or.inr ⟨he2, hi.1⟩, Or.inr ⟨he2, hi.2⟩⟩
      · rintro ⟨h | ⟨he2, hi⟩, hb⟩
        · exact Or.inl h
        · rcases hb with hb | ⟨-, hbi⟩
          · exact Or.inl hb
          · exact Or.inr ⟨he2, by simp [hi, hbi]⟩

theorem min_up_spec {a b t : Int} {ai bi : Bool} :
    before_up (if a < b then (a, ai) else if a > b then (b, bi) else (a, ai && bi)).1
      (if a < b then (a, ai) else if a > b then (b, bi) else (a, ai && bi)).2 t ↔
    (before_up a ai t ∧ before_up b bi t) := by
  by_cases h1 : a < b
  · rw [if_pos h1]
    unfold before_up
    constructor
    · intro h
      exact ⟨h, Or.inl (by rcases h with h | ⟨h, -⟩ <;> omega)⟩
    · exact fun h => h.1
  · rw [if_neg h1]
    by_cases h2 : a > b
    · rw [if_pos h2]
      unfold before_up
      constructor
      · intro h
        exact ⟨Or.inl (by rcases h with h | ⟨h, -⟩ <;> omega), h⟩
      · exact fun h => h.2
    · rw [if_neg h2]
      have he : a = b := by omega
      subst he
      unfold before_up
      constructor
      · rintro (h | ⟨he2, hi⟩)
        · exact ⟨Or.inl h, Or.inl h⟩
        · simp only [Bool.and_eq_true] at hi
          exact ⟨Or.inr ⟨he2, hi.1⟩, Or.inr ⟨he2, hi.2⟩⟩
      · rintro ⟨h | ⟨he2, hi⟩, hb⟩
        · exact Or.inl h
        · rcases hb with hb | ⟨-, hbi⟩
          · exact Or.inl hb
          · exact Or.inr ⟨he2, by simp [hi, hbi]⟩

theorem intersection_mem {p q r : Period}
    (h : intersection_period_period_internal p q = some r) (t : Int) :
    period_mem r t ↔ period_mem p t ∧ period_mem q t := by
  unfold intersection_period_period_internal at h
  by_cases hov : overlaps_period_period_internal p q
  · rw [if_pos hov] at h
    simp only [Option.some.injEq] at h
    subst h
    rw [period_mem_iff, period_mem_iff, period_mem_iff]
    dsimp only
    rw [max_low_spec, min_up_spec]
    tauto
  · rw [if_neg hov] at h
    exact absurd h (by simp)

theorem intersection_contains_left {p q r : Period}
    (h : intersection_period_period_internal p q = some r) :
    contains_period_period_internal p r = true := by
  unfold intersection_period_period_internal at h
  by_cases hov : overlaps_period_period_internal p q
  · rw [if_pos hov] at h
    simp only [Option.some.injEq] at h
    subst h
    unfold contains_period_period_internal
    dsimp only
    rw [Bool.and_eq_true]
    constructor
    · by_cases h1 : p.lower > q.lower
      · rw [if_pos h1]
        simp
      · rw [if_neg h1]
        by_cases h2 : p.lower < q.lower
        · rw [if_pos h2]
          simp [h2]
        · rw [if_neg h2]
          cases p.lower_inc <;> simp
    · by_cases h3 : p.upper < q.upper
      · rw [if_pos h3]
        simp
      · rw [if_neg h3]
        by_cases h4 : p.upper > q.upper
        · rw [if_pos h4]
          simp [h4]
        · rw [if_neg h4]
          cases p.upper_inc <;> simp
  · rw [if_neg hov] at h
    exact absurd h (by simp)

theorem intersection_contains_right {p q r : Period}
    (h : intersection_period_period_internal p q = some r) :
    contains_period_period_internal q r = true := by
  unfold intersection_period_period_internal at h
  by_cases hov : overlaps_period_period_internal p q
  · rw [if_pos hov] at h
    simp only [Option.some.injEq] at h
    subst h
    unfold contains_period_period_internal
    dsimp only
    rw [Bool.and_eq_true]
    constructor
    · by_cases h1 : p.lower > q.lower
      · rw [if_pos h1]
        simp [h1]
      · rw [if_neg h1]
        by_cases h2 : p.lower < q.lower
        · rw [if_pos h2]
          simp
        · rw [if_neg h2]
          have he : p.lower = q.lower := by omega
          rw [he]
          cases hql : q.lower_inc <;> simp [hql]
    · by_cases h3 : p.upper < q.upper
      · rw [if_pos h3]
        simp [h3]
      · rw [if_neg h3]
        by_cases h4 : p.upper > q.upper
        · rw [if_pos h4]
          simp
        · rw [if_neg h4]
          have he : p.upper = q.upper := by omega
          rw [he]
          cases hqu : q.upper_inc <;> simp [hqu]
  · rw [if_neg hov] at h
    exact absurd h (by simp)

theorem intersection_valid {p q r : Period} (hp : period_valid p)
    (hq : period_valid q)
    (h : intersection_period_period_internal p q = some r) : period_valid r := by
  unfold intersection_period_period_internal at h
  by_cases hov : overlaps_period_period_internal p q
  · rw [if_pos hov] at h
    simp only [Option.some.injEq] at h
    subst h
    unfold overlaps_period_period_internal at hov
    simp only [Bool.and_eq_true, Bool.or_eq_true, decide_eq_true_eq,
      beq_iff_eq] at hov
    obtain ⟨hov1a, hov2a⟩ := hov
    obtain ⟨hp1, hp2⟩ := hp
    obtain ⟨hq1, hq2⟩ := hq
    have hov1 : p.lower < q.upper ∨
        (p.lower = q.upper ∧ p.lower_inc = true ∧ q.upper_inc = true) := by
      tauto
    have hov2 : q.lower < p.upper ∨
        (q.lower = p.upper ∧ q.lower_inc = true ∧ p.upper_inc = true) := by
      tauto
    have hov1' : p.lower ≤ q.upper := by
      rcases hov1 with h | h <;> omega
    have hov2' : q.lower ≤ p.upper := by
      rcases hov2 with h | h <;> omega
    unfold period_valid
    dsimp only
    by_cases h1 : p.lower > q.lower
    · rw [if_pos h1]
      by_cases h3 : p.upper < q.upper
      · rw [if_pos h3]
        exact ⟨hp1, hp2⟩
      · rw [if_neg h3]
        by_cases h4 : p.upper > q.upper
        · rw [if_pos h4]
          refine ⟨by omega, fun he => ?_⟩
          rcases hov1 with h | ⟨he2, hf1, hf2⟩
          · exact absurd h (by omega)
          · exact ⟨hf1, hf2⟩
        · rw [if_neg h4]
          refine ⟨by omega, fun he => ?_⟩
          obtain ⟨hd1, hd2⟩ := hp2 he
          refine ⟨hd1, ?_⟩
          simp only [Bool.and_eq_true]
          refine ⟨hd2, ?_⟩
          rcases hov1 with h | ⟨he2, hf1, hf2⟩
          · exact absurd h (by omega)
          · exact hf2
    · rw [if_neg h1]
      by_cases h2 : p.lower < q.lower
      · rw [if_pos h2]
        by_cases h3 : p.upper < q.upper
        · rw [if_pos h3]
          refine ⟨by omega, fun he => ?_⟩
          rcases hov2 with h | ⟨he2, hf1, hf2⟩
          · exact absurd h (by omega)
          · exact ⟨hf1, hf2⟩
        · rw [if_neg h3]
          by_cases h4 : p.upper > q.upper
          · rw [if_pos h4]
            exact ⟨hq1, hq2⟩
          · rw [if_neg h4]
            refine ⟨by omega, fun he => ?_⟩
            have heq : q.lower = q.upper := by omega
            obtain ⟨hd1, hd2⟩ := hq2 heq
            refine ⟨hd1, ?_⟩
            simp only [Bool.and_eq_true]
            refine ⟨?_, hd2⟩
            rcases hov2 with h | ⟨he2, hf1, hf2⟩
            · exact absurd h (by omega)
            · exact hf2
      · rw [if_neg h2]
        have hel : p.lower = q.lower := by omega
        by_cases h3 : p.upper < q.upper
        · rw [if_pos h3]
          refine ⟨by omega, fun he => ?_⟩
          obtain ⟨hd1, hd2⟩ := hp2 he
          simp only [Bool.and_eq_true]
          refine ⟨⟨hd1, ?_⟩, hd2⟩
          rcases hov2 with h | ⟨he2, hf1, hf2⟩
          · exact absurd h (by omega)
          · exact hf1
        · rw [if_neg h3]
          by_cases h4 : p.upper > q.upper
          · rw [if_pos h4]
            refine ⟨by omega, fun he => ?_⟩
            have heq : q.lower = q.upper := by omega
            obtain ⟨hd1, hd2⟩ := hq2 heq
            simp only [Bool.and_eq_true]
            refine ⟨⟨?_, hd1⟩, hd2⟩
            rcases hov1 with h | ⟨he2, hf1, hf2⟩
            · exact absurd h (by omega)
            · exact hf1
          · rw [if_neg h4]
            refine ⟨by omega, fun he => ?_⟩
            obtain ⟨hd1, hd2⟩ := hp2 he
            have heq : q.lower = q.upper := by omega
            obtain ⟨he1, he2⟩ := hq2 heq
            simp only [Bool.and_eq_true]
            exact ⟨⟨hd1, he1⟩, hd2, he2⟩
  · rw [if_neg hov] at h
    exact absurd h (by simp)

theorem getElem_eq_seqarr_n (l : List TemporalSeq) (i : Nat) (hi : i < l.length) :
    l[i] = seqarr_n l i := by
  unfold seqarr_n
  rw [List.getD_eq_getElem?_getD, List.getElem?_eq_getElem hi]
  rfl

theorem contains_pp_refl (p : Period) :
    contains_period_period_internal p p = true := by
  unfold contains_period_period_internal
  cases p.lower_inc <;> cases p.upper_inc <;> simp

/-- Two flag-aware subsets of two separated windows are separated. -/
theorem persep_of_windows {W1 W2 f g : Period}
    (hw : seqpair_sep W1 W2)
    (hf : contains_period_period_internal W1 f = true)
    (hg : contains_period_period_internal W2 g = true) :
    seqpair_sep f g := by
  unfold contains_period_period_internal at hf hg
  simp only [Bool.and_eq_true, Bool.or_eq_true, decide_eq_true_eq, beq_iff_eq,
    Bool.not_eq_true'] at hf hg
  obtain ⟨hf1, hf2⟩ := hf
  obtain ⟨hg1, hg2⟩ := hg
  have hfu : f.upper ≤ W1.upper := by
    rcases hf2 with h | ⟨h, -⟩ <;> omega
  have hgl : W2.lower ≤ g.lower := by
    rcases hg1 with h | ⟨h, -⟩ <;> omega
  have hwle : W1.upper ≤ W2.lower := by
    unfold seqpair_sep at hw
    rcases hw with h | ⟨h, -⟩ <;> omega
  unfold seqpair_sep
  by_cases he : f.upper = g.lower
  · right
    refine ⟨he, ?_⟩
    rintro ⟨hfi, hgi⟩
    have hW1u : W1.upper_inc = true := by
      rcases hf2 with h | ⟨-, h | h⟩
      · exact absurd h (by omega)
      · exact h
      · rw [h] at hfi
        exact absurd hfi (by simp)
    have hW2l : W2.lower_inc = true := by
      rcases hg1 with h | ⟨-, h | h⟩
      · exact absurd h (by omega)
      · exact h
      · rw [h] at hgi
        exact absurd hgi (by simp)
    rcases hw with h | ⟨-, hn⟩
    · exact absurd h (by omega)
    · exact hn ⟨hW1u, hW2l⟩
  · left
    omega

/-- Any two (not necessarily consecutive) sequences of a valid list are
separated. -/
theorem chain_sep_of_lt {l : List TemporalSeq} (hwf : seqlist_wf l)
    (hsep : seqlist_sep l) {i j : Nat} (hij : i < j) (hj : j < l.length) :
    seqpair_sep (periodn l i) (periodn l j) := by
  by_cases hj1 : j = i + 1
  · subst hj1
    exact hsep i hj
  · have hij2 : i + 1 < j := by omega
    have hle := chain_of_lt hwf hsep hij hj
    by_cases he : (periodn l i).upper = (periodn l j).lower
    · right
      refine ⟨he, ?_⟩
      rintro ⟨hui, hlj⟩
      have h1 := chain_of_lt hwf hsep (show i < i + 1 by omega) (by omega)
      have h2 := chain_of_lt hwf hsep hij2 hj
      obtain ⟨hv1, hv2⟩ := period_valid_of_wf hwf (show i + 1 < l.length by omega)
      have hdeg : (periodn l (i + 1)).lower = (periodn l (i + 1)).upper := by
        omega
      have hlinc := (hv2 hdeg).1
      rcases hsep i (by omega) with h | ⟨-, hn⟩
      · exact absurd h (by omega)
      · exact hn ⟨hui, hlinc⟩
    · left
      omega

theorem pairwise_sep_periods {l : List TemporalSeq} (hwf : seqlist_wf l)
    (hsep : seqlist_sep l) :
    List.Pairwise seqpair_sep (l.map (fun s => s.period)) := by
  rw [List.pairwise_iff_getElem]
  intro i j hi hj hij
  simp only [List.length_map] at hi hj
  rw [List.getElem_map, List.getElem_map, getElem_eq_seqarr_n l i hi,
    getElem_eq_seqarr_n l j hj]
  exact chain_sep_of_lt hwf hsep hij hj

/-- Modelled from the spec: subtraction of period `q` from period `p` —
the at most two remaining pieces in time order (the period subtraction
behind `minus_periodset_period_internal` of `PeriodSet.c`). -/
def minus_period_period (p q : Period) : List Period :=
  if overlaps_period_period_internal p q then
    (if p.lower < q.lower ∨
        (p.lower = q.lower ∧ p.lower_inc = true ∧ q.lower_inc = false) then
      [⟨p.lower, q.lower, p.lower_inc, !q.lower_inc⟩]
    else []) ++
    (if q.upper < p.upper ∨
        (q.upper = p.upper ∧ p.upper_inc = true ∧ q.upper_inc = false) then
      [⟨q.upper, p.upper, !q.upper_inc, p.upper_inc⟩]
    else [])
  else [p]

theorem before_up_not_after_low (l : Int) (inc : Bool) (t : Int) :
    before_up l (!inc) t ↔ ¬ after_low l inc t := by
  unfold before_up after_low
  cases inc <;> simp <;> omega

theorem after_low_not_before_up (u : Int) (inc : Bool) (t : Int) :
    after_low u (!inc) t ↔ ¬ before_up u inc t := by
  unfold after_low before_up
  cases inc <;> simp <;> omega

theorem before_of_not_after {l u : Int} {linc uinc : Bool} {t : Int}
    (hov : l < u ∨ (l = u ∧ linc = true ∧ uinc = true))
    (h : ¬ after_low l linc t) : before_up u uinc t := by
  unfold after_low at h
  push_neg at h
  unfold before_up
  rcases hov with h2 | ⟨h2, h3, h4⟩
  · left
    omega
  · rcases lt_trichotomy t l with hc | hc | hc
    · left
      omega
    · exact Or.inr ⟨by omega, h4⟩
    · exact absurd hc (by omega)

theorem after_of_not_before {l u : Int} {linc uinc : Bool} {t : Int}
    (hov : l < u ∨ (l = u ∧ linc = true ∧ uinc = true))
    (h : ¬ before_up u uinc t) : after_low l linc t := by
  unfold before_up at h
  push_neg at h
  unfold after_low
  rcases hov with h2 | ⟨h2, h3, h4⟩
  · left
    omega
  · rcases lt_trichotomy t u with hc | hc | hc
    · exact absurd hc (by omega)
    · exact Or.inr ⟨by omega, h3⟩
    · left
      omega

theorem before_mono {u1 u2 : Int} {i1 i2 : Bool} {t : Int}
    (h12 : u1 < u2 ∨ (u1 = u2 ∧ (i1 = true → i2 = true)))
    (h : before_up u1 i1 t) : before_up u2 i2 t := by
  unfold before_up at h ⊢
  rcases h12 with h2 | ⟨h2, h3⟩
  · left
    rcases h with h | ⟨h, -⟩ <;> omega
  · rcases h with h | ⟨h4, h5⟩
    · left
      omega
    · exact Or.inr ⟨by omega, h3 h5⟩

theorem after_mono {l1 l2 : Int} {i1 i2 : Bool} {t : Int}
    (h12 : l2 < l1 ∨ (l2 = l1 ∧ (i1 = true → i2 = true)))
    (h : after_low l1 i1 t) : after_low l2 i2 t := by
  unfold after_low at h ⊢
  rcases h12 with h2 | ⟨h2, h3⟩
  · left
    rcases h with h | ⟨h, -⟩ <;> omega
  · rcases h with h | ⟨h4, h5⟩
    · left
      omega
    · exact Or.inr ⟨by omega, h3 h5⟩

theorem minus_period_period_mem {p q : Period} (hq : period_valid q) (t : Int) :
    (∃ r ∈ minus_period_period p q, period_mem r t) ↔
      period_mem p t ∧ ¬ period_mem q t := by
  unfold minus_period_period
  by_cases hov : overlaps_period_period_internal p q = true
  · rw [if_pos hov]
    unfold overlaps_period_period_internal at hov
    simp only [Bool.and_eq_true, Bool.or_eq_true, decide_eq_true_eq,
      beq_iff_eq] at hov
    have hov1 : p.lower < q.upper ∨
        (p.lower = q.upper ∧ p.lower_inc = true ∧ q.upper_inc = true) := by
      tauto
    have hov2 : q.lower < p.upper ∨
        (q.lower = p.upper ∧ q.lower_inc = true ∧ p.upper_inc = true) := by
      tauto
    have fact1 : ¬ after_low q.lower q.lower_inc t →
        before_up p.upper p.upper_inc t :=
      fun h => before_of_not_after hov2 h
    have fact2 : ¬ before_up q.upper q.upper_inc t →
        after_low p.lower p.lower_inc t :=
      fun h => after_of_not_before hov1 h
    rw [show (period_mem p t ∧ ¬ period_mem q t) =
        ((after_low p.lower p.lower_inc t ∧ before_up p.upper p.upper_inc t) ∧
          ¬ (after_low q.lower q.lower_inc t ∧
             before_up q.upper q.upper_inc t)) from rfl]
    by_cases hc1 : p.lower < q.lower ∨
        (p.lower = q.lower ∧ p.lower_inc = true ∧ q.lower_inc = false)
    · rw [if_pos hc1]
      by_cases hc2 : q.upper < p.upper ∨
          (q.upper = p.upper ∧ p.upper_inc = true ∧ q.upper_inc = false)
      · rw [if_pos hc2]
        simp only [List.mem_append, List.mem_singleton, List.cons_append,
          List.nil_append, List.mem_cons, List.not_mem_nil, or_false]
        constructor
        · rintro ⟨r, hr | hr, hm⟩ <;> subst hr <;>
            rw [period_mem_iff] at hm <;> dsimp only at hm
          · rw [before_up_not_after_low] at hm
            exact ⟨⟨hm.1, fact1 hm.2⟩, fun hh => hm.2 hh.1⟩
          · rw [after_low_not_before_up] at hm
            exact ⟨⟨fact2 hm.1, hm.2⟩, fun hh => hm.1 hh.2⟩
        · rintro ⟨⟨ha, hb⟩, hn⟩
          rw [Classical.not_and_iff_or_not_not] at hn
          rcases hn with hn | hn
          · refine ⟨⟨p.lower, q.lower, p.lower_inc, !q.lower_inc⟩, Or.inl rfl, ?_⟩
            rw [period_mem_iff]
            dsimp only
            rw [before_up_not_after_low]
            exact ⟨ha, hn⟩
          · refine ⟨⟨q.upper, p.upper, !q.upper_inc, p.upper_inc⟩, Or.inr rfl, ?_⟩
            rw [period_mem_iff]
            dsimp only
            rw [after_low_not_before_up]
            exact ⟨hn, hb⟩
      · rw [if_neg hc2]
        push_neg at hc2
        have fact3 : before_up p.upper p.upper_inc t →
            before_up q.upper q.upper_inc t := by
          intro h
          apply before_mono _ h
          rcases lt_or_eq_of_le hc2.1 with hlt | heq
          · exact Or.inl hlt
          · refine Or.inr ⟨heq, fun hi => ?_⟩
            have := hc2.2 heq.symm
            cases hqu : q.upper_inc with
            | true => rfl
            | false => exact (this hi hqu).elim
        simp only [List.append_nil, List.mem_singleton]
        constructor
        · rintro ⟨r, hr, hm⟩
          subst hr
          rw [period_mem_iff] at hm
          dsimp only at hm
          rw [before_up_not_after_low] at hm
          exact ⟨⟨hm.1, fact1 hm.2⟩, fun hh => hm.2 hh.1⟩
        · rintro ⟨⟨ha, hb⟩, hn⟩
          rw [Classical.not_and_iff_or_not_not] at hn
          rcases hn with hn | hn
          · refine ⟨⟨p.lower, q.lower, p.lower_inc, !q.lower_inc⟩, rfl, ?_⟩
            rw [period_mem_iff]
            dsimp only
            rw [before_up_not_after_low]
            exact ⟨ha, hn⟩
          · exact absurd (fact3 hb) hn
    · rw [if_neg hc1]
      push_neg at hc1
      have fact4 : after_low p.lower p.lower_inc t →
          after_low q.lower q.lower_inc t := by
        intro h
        apply after_mono _ h
        rcases lt_or_eq_of_le hc1.1 with hlt | heq
        · exact Or.inl hlt
        · refine Or.inr ⟨heq, fun hi => ?_⟩
          have := hc1.2 heq.symm
          cases hql : q.lower_inc with
          | true => rfl
          | false => exact (this hi hql).elim
      by_cases hc2 : q.upper < p.upper ∨
          (q.upper = p.upper ∧ p.upper_inc = true ∧ q.upper_inc = false)
      · rw [if_pos hc2]
        simp only [List.nil_append, List.mem_singleton]
        constructor
        · rintro ⟨r, hr, hm⟩
          subst hr
          rw [period_mem_iff] at hm
          dsimp only at hm
          rw [after_low_not_before_up] at hm
          exact ⟨⟨fact2 hm.1, hm.2⟩, fun hh => hm.1 hh.2⟩
        · rintro ⟨⟨ha, hb⟩, hn⟩
          rw [Classical.not_and_iff_or_not_not] at hn
          rcases hn with hn | hn
          · exact absurd (fact4 ha) hn
          · refine ⟨⟨q.upper, p.upper, !q.upper_inc, p.upper_inc⟩, rfl, ?_⟩
            rw [period_mem_iff]
            dsimp only
            rw [after_low_not_before_up]
            exact ⟨hn, hb⟩
      · rw [if_neg hc2]
        push_neg at hc2
        have fact3 : before_up p.upper p.upper_inc t →
            before_up q.upper q.upper_inc t := by
          intro h
          apply before_mono _ h
          rcases lt_or_eq_of_le hc2.1 with hlt | heq
          · exact Or.inl hlt
          · refine Or.inr ⟨heq, fun hi => ?_⟩
            have := hc2.2 heq.symm
            cases hqu : q.upper_inc with
            | true => rfl
            | false => exact (this hi hqu).elim
        simp only [List.append_nil, List.not_mem_nil]
        constructor
        · rintro ⟨r, hr, -⟩
          exact hr.elim
        · rintro ⟨⟨ha, hb⟩, hn⟩
          exact absurd ⟨fact4 ha, fact3 hb⟩ hn
  · rw [if_neg hov]
    have hov' : overlaps_period_period_internal p q = false := by
      cases h : overlaps_period_period_internal p q
      · rfl
      · exact absurd h hov
    simp only [List.mem_singleton]
    constructor
    · rintro ⟨r, hr, hm⟩
      subst hr
      exact ⟨hm, fun hqt => not_overlaps_disjoint hov' hm hqt⟩
    · rintro ⟨hm, -⟩
      exact ⟨p, rfl, hm⟩

/-- Modelled from the spec: restriction of one sequence to a period — the
result is defined over the intersection of the sequence's period with the
restriction period, its instants filtered to that intersection; `NULL`
when the periods are disjoint (`temporalseq_at_period` of
`TemporalSeq.c`). -/
def temporalseq_at_period (seq : TemporalSeq) (p : Period) :
    Option TemporalSeq :=
  match intersection_period_period_internal seq.period p with
  | none => none
  | some inter =>
    some ⟨seq.instants.filter
            (fun i => contains_period_timestamp_internal inter i.t), inter⟩

/-- One iteration's contribution to the scan of `temporals_at_period`
(TemporalS.c lines 1773-1780): the sequence kept whole when the period
contains it, restricted when it merely overlaps, dropped otherwise. -/
def at_period_keep (seq : TemporalSeq) (P : Period) : List TemporalSeq :=
  if contains_period_period_internal P seq.period then [seq]
  else if overlaps_period_period_internal P seq.period then
    match temporalseq_at_period seq P with
    | some newseq => [newseq]
    | none => []
  else []

/-- The loop exit test of `temporals_at_period` (TemporalS.c lines
1781-1784). -/
def at_period_break (seq : TemporalSeq) (P : Period) : Prop :=
  timestamp_cmp_internal P.upper seq.period.upper < 0 ∨
  (timestamp_cmp_internal P.upper seq.period.upper = 0 ∧
   seq.period.upper_inc = true)

instance (seq : TemporalSeq) (P : Period) : Decidable (at_period_break seq P) := by
  unfold at_period_break
  infer_instance

/-- The scan loop of `temporals_at_period` (TemporalS.c lines 1771-1785),
collecting the kept sequences from index `i` on. -/
def temporals_at_period_loop (l : List TemporalSeq) (P : Period) (i : Nat) :
    List TemporalSeq :=
  if h : i < l.length then
    if at_period_break (seqarr_n l i) P then at_period_keep (seqarr_n l i) P
    else at_period_keep (seqarr_n l i) P ++ temporals_at_period_loop l P (i + 1)
  else []
termination_by l.length - i
decreasing_by omega

/-- `temporals_at_period` (TemporalS.c lines 1754-1797): restriction of a
sequence set to a period.  The singleton branch feeds the possibly-`NULL`
result of `temporalseq_at_period` straight into the constructor, which
dereferences it — modelled as `Except.error`.  A `NULL` result of the
general case (`k == 0`) is `Option.none`. -/
def temporals_at_period (ts : TemporalS) (P : Period) :
    Except Unit (Option TemporalS) :=
  if ts.seqs.length = 1 then
    match temporalseq_at_period (temporals_seq_n ts 0) P with
    | none => .error ()
    | some seq => (temporals_from_temporalseqarr [seq] false).map some
  else
    let n := (temporals_find_timestamp ts P.lower).2
    let kept := temporals_at_period_loop ts.seqs P n.toNat
    if kept = [] then .ok none
    else (temporals_from_temporalseqarr kept false).map some

/-- Modelled from the spec: the time extent of a sequence set as the
period set holding each component sequence's period, in order
(`temporals_get_time` of TemporalS.c, building on `PeriodSet.c`); for a
valid set the consecutive periods are separated, so no merging occurs. -/
def temporals_get_time (ts : TemporalS) : List Period :=
  ts.seqs.map (fun s => s.period)

/-- Modelled from the spec: subtraction of a period from a period set —
subtract it from every member in order, `NULL` when nothing remains
(`minus_periodset_period_internal` of `PeriodSet.c`). -/
def minus_periodset_period_internal (ps : List Period) (P : Period) :
    Option (List Period) :=
  let l := (ps.map (fun r => minus_period_period r P)).flatten
  if l = [] then none else some l

/-- Modelled from the spec: restriction of one sequence to every period
of a period set in order, keeping the nonempty pieces
(`temporalseq_at_periodset1` of `TemporalSeq.c`). -/
def temporalseq_at_periodset1 (seq : TemporalSeq) (ps : List Period) :
    List TemporalSeq :=
  ps.filterMap (fun p => temporalseq_at_period seq p)

/-- Modelled from the spec: restriction of one sequence to a period set,
assembling the pieces into a sequence set; `NULL` when no piece remains
(`temporalseq_at_periodset` of `TemporalSeq.c`). -/
def temporalseq_at_periodset (seq : TemporalSeq) (ps : List Period) :
    Except Unit (Option TemporalS) :=
  let pieces := temporalseq_at_periodset1 seq ps
  if pieces = [] then .ok none
  else (temporals_from_temporalseqarr pieces false).map some

/-- `temporals_at_periodset` (TemporalS.c lines 1826-1865): restriction
of a sequence set to a period set — the per-sequence restriction lists
are flattened and fed to the constructor with `normalize = true`; a
`NULL` result (no fragment at all) is `Option.none`. -/
def temporals_at_periodset (ts : TemporalS) (ps : List Period) :
    Except Unit (Option TemporalS) :=
  if ts.seqs.length = 1 then
    temporalseq_at_periodset (temporals_seq_n ts 0) ps
  else
    let allseqs :=
      (ts.seqs.map (fun seq => temporalseq_at_periodset1 seq ps)).flatten
    if allseqs = [] then .ok none
    else (temporals_from_temporalseqarr allseqs true).map some

/-- Modelled from the spec: restriction of one sequence to the complement
of a period — re-derive the kept extent by period subtraction, then
restrict to it (`temporalseq_minus_period` of `TemporalSeq.c`). -/
def temporalseq_minus_period (seq : TemporalSeq) (P : Period) :
    Except Unit (Option TemporalS) :=
  match minus_periodset_period_internal [seq.period] P with
  | none => .ok none
  | some ps => temporalseq_at_periodset seq ps

/-- `temporals_minus_period` (TemporalS.c lines 1803-1820): restriction
of a sequence set to the complement of a period, by subtracting the
period from the set's time extent and restricting to the remainder.
When the subtraction leaves nothing, `resultps` is `NULL` and line 1817
still executes `pfree(resultps)` unconditionally — freeing a `NULL`
pointer, a crash modelled as `Except.error`. -/
def temporals_minus_period (ts : TemporalS) (P : Period) :
    Except Unit (Option TemporalS) :=
  if ts.seqs.length = 1 then
    temporalseq_minus_period (temporals_seq_n ts 0) P
  else
    match minus_periodset_period_internal (temporals_get_time ts) P with
    | none => .error ()
    | some resultps => temporals_at_periodset ts resultps

/-- A timestamp lies in the time extent of a list of sequences. -/
def seqs_mem_time (l : List TemporalSeq) (t : Int) : Prop :=
  ∃ s ∈ l, period_mem s.period t

/-- A timestamp lies in some period of a period list. -/
def periods_mem_time (ps : List Period) (t : Int) : Prop :=
  ∃ p ∈ ps, period_mem p t

/-- The time extent of an optional sequence set, an absent set being
empty. -/
def opt_mem_time : Option TemporalS → Int → Prop
  | none, _ => False
  | some ts, t => seqs_mem_time ts.seqs t

theorem seqs_mem_time_cons (s : TemporalSeq) (l : List TemporalSeq) (t : Int) :
    seqs_mem_time (s :: l) t ↔ (period_mem s.period t ∨ seqs_mem_time l t) := by
  unfold seqs_mem_time
  simp

theorem seqs_mem_time_iff_index (l : List TemporalSeq) (t : Int) :
    seqs_mem_time l t ↔ ∃ j, j < l.length ∧ period_mem (periodn l j) t := by
  unfold seqs_mem_time
  constructor
  · rintro ⟨s, hs, hm⟩
    obtain ⟨j, hj, he⟩ := List.getElem_of_mem hs
    refine ⟨j, hj, ?_⟩
    unfold periodn
    rw [← getElem_eq_seqarr_n l j hj, he]
    exact hm
  · rintro ⟨j, hj, hm⟩
    refine ⟨seqarr_n l j, ?_, hm⟩
    rw [← getElem_eq_seqarr_n l j hj]
    exact List.getElem_mem hj

theorem overlaps_comm (p q : Period) :
    overlaps_period_period_internal p q = overlaps_period_period_internal q p := by
  unfold overlaps_period_period_internal
  rw [Bool.and_comm]

theorem at_period_some_inter {seq : TemporalSeq} {P : Period} {s : TemporalSeq}
    (h : temporalseq_at_period seq P = some s) :
    intersection_period_period_internal seq.period P = some s.period := by
  unfold temporalseq_at_period at h
  cases hi : intersection_period_period_internal seq.period P with
  | none =>
    rw [hi] at h
    exact Option.noConfusion h
  | some inter =>
    rw [hi] at h
    simp only [Option.some.injEq] at h
    rw [← h]

theorem at_period_some_of_overlaps {seq : TemporalSeq} {P : Period}
    (hov : overlaps_period_period_internal seq.period P = true) :
    ∃ s, temporalseq_at_period seq P = some s := by
  unfold temporalseq_at_period intersection_period_period_internal
  rw [if_pos hov]
  exact ⟨_, rfl⟩

theorem at_period_keep_contains {seq : TemporalSeq} {P : Period}
    {s : TemporalSeq} (hs : s ∈ at_period_keep seq P) :
    contains_period_period_internal seq.period s.period = true := by
  unfold at_period_keep at hs
  split_ifs at hs with h1 h2
  · rw [List.mem_singleton] at hs
    rw [hs]
    exact contains_pp_refl seq.period
  · cases hap : temporalseq_at_period seq P with
    | none =>
      rw [hap] at hs
      dsimp only at hs
      exact absurd hs (List.not_mem_nil s)
    | some newseq =>
      rw [hap] at hs
      dsimp only at hs
      rw [List.mem_singleton] at hs
      rw [hs]
      exact intersection_contains_left (at_period_some_inter hap)
  · exact absurd hs (List.not_mem_nil s)

theorem at_period_keep_valid {seq : TemporalSeq} {P : Period}
    (hsv : period_valid seq.period) (hP : period_valid P) :
    ∀ s ∈ at_period_keep seq P, period_valid s.period := by
  intro s hmem
  unfold at_period_keep at hmem
  split_ifs at hmem with h1 h2
  · rw [List.mem_singleton] at hmem
    rw [hmem]
    exact hsv
  · cases hap : temporalseq_at_period seq P with
    | none =>
      rw [hap] at hmem
      dsimp only at hmem
      exact absurd hmem (List.not_mem_nil s)
    | some newseq =>
      rw [hap] at hmem
      dsimp only at hmem
      rw [List.mem_singleton] at hmem
      rw [hmem]
      exact intersection_valid hsv hP (at_period_some_inter hap)
  · exact absurd hmem (List.not_mem_nil s)

theorem at_period_keep_pairwise (seq : TemporalSeq) (P : Period) :
    List.Pairwise seqsep (at_period_keep seq P) := by
  unfold at_period_keep
  split_ifs with h1 h2
  · exact List.pairwise_singleton _ _
  · cases temporalseq_at_period seq P with
    | none => exact List.Pairwise.nil
    | some newseq => exact List.pairwise_singleton _ _
  · exact List.Pairwise.nil

theorem at_period_keep_mem (seq : TemporalSeq) (P : Period) (t : Int) :
    (∃ s ∈ at_period_keep seq P, period_mem s.period t) ↔
      (period_mem seq.period t ∧ period_mem P t) := by
  unfold at_period_keep
  split_ifs with h1 h2
  · simp only [List.mem_singleton, exists_eq_left]
    exact ⟨fun h => ⟨h, contains_pp_mono h1 h⟩, fun h => h.1⟩
  · cases hap : temporalseq_at_period seq P with
    | none =>
      exfalso
      have hov : overlaps_period_period_internal seq.period P = true := by
        rw [overlaps_comm]
        exact h2
      obtain ⟨s, hs⟩ := at_period_some_of_overlaps hov
      rw [hap] at hs
      exact Option.noConfusion hs
    | some newseq =>
      dsimp only
      simp only [List.mem_singleton, exists_eq_left]
      exact intersection_mem (at_period_some_inter hap) t
  · have hov : overlaps_period_period_internal P seq.period = false := by
      cases h : overlaps_period_period_internal P seq.period
      · rfl
      · exact absurd h h2
    refine iff_of_false (by simp) ?_
    rintro ⟨hm, hmp⟩
    exact not_overlaps_disjoint hov hmp hm

theorem at_period_break_iff (seq : TemporalSeq) (P : Period) :
    at_period_break seq P ↔
      (P.upper < seq.period.upper ∨
        (P.upper = seq.period.upper ∧ seq.period.upper_inc = true)) := by
  constructor
  · intro h
    unfold at_period_break timestamp_cmp_internal at h
    split_ifs at h with h1 h2
    · exact Or.inl h1
    · rcases h with h | ⟨-, h⟩
      · exact absurd h (by omega)
      · exact Or.inr ⟨h2, h⟩
    · rcases h with h | ⟨h, -⟩ <;> omega
  · intro h
    unfold at_period_break timestamp_cmp_internal
    rcases h with h | ⟨h1, h2⟩
    · rw [if_pos h]
      exact Or.inl (by omega)
    · rw [if_neg (by omega), if_pos h1]
      exact Or.inr ⟨rfl, h2⟩

theorem overlaps_of_contains {w x : Period}
    (hc : contains_period_period_internal w x = true) (hx : period_valid x) :
    overlaps_period_period_internal w x = true := by
  obtain ⟨hx1, hx2⟩ := hx
  unfold contains_period_period_internal at hc
  unfold overlaps_period_period_internal
  cases hwl : w.lower_inc <;> cases hwu : w.upper_inc <;>
    cases hxl : x.lower_inc <;> cases hxu : x.upper_inc <;>
      simp [hwl, hwu, hxl, hxu] at hc hx2 ⊢ <;> omega

theorem prefix_disjoint_found {l : List TemporalSeq} (hwf : seqlist_wf l)
    (hsep : seqlist_sep l) {P : Period} {n j : Nat} (hjn : j < n)
    (hn : n < l.length) (hmemn : period_mem (periodn l n) P.lower)
    {t : Int} (hPt : period_mem P t) (hjt : period_mem (periodn l j) t) :
    False := by
  have hsep' := chain_sep_of_lt hwf hsep hjn hn
  unfold seqpair_sep at hsep'
  obtain ⟨hm1, -⟩ := hmemn
  obtain ⟨hp1, -⟩ := hPt
  obtain ⟨-, hj2⟩ := hjt
  rcases hsep' with h | ⟨he, hn2⟩
  · rcases hm1 with h1 | ⟨h1, -⟩ <;> rcases hp1 with h2 | ⟨h2, -⟩ <;>
      rcases hj2 with h3 | ⟨h3, -⟩ <;> omega
  · rcases hm1 with h1 | ⟨h1, hflag1⟩
    · rcases hp1 with h2 | ⟨h2, -⟩ <;> rcases hj2 with h3 | ⟨h3, -⟩ <;> omega
    · rcases hp1 with h2 | ⟨h2, -⟩
      · rcases hj2 with h3 | ⟨h3, -⟩ <;> omega
      · rcases hj2 with h3 | ⟨h3, hflag3⟩
        · omega
        · exact hn2 ⟨hflag3, hflag1⟩

theorem prefix_disjoint_after {P q : Period} (haft : t_after P.lower q)
    {t : Int} (hPt : period_mem P t) (hqt : period_mem q t) : False := by
  unfold t_after at haft
  obtain ⟨hp1, -⟩ := hPt
  obtain ⟨-, hq2⟩ := hqt
  rcases haft with h | ⟨h, hflag⟩
  · rcases hp1 with h1 | ⟨h1, -⟩ <;> rcases hq2 with h2 | ⟨h2, -⟩ <;> omega
  · rcases hp1 with h1 | ⟨h1, -⟩
    · rcases hq2 with h2 | ⟨h2, -⟩ <;> omega
    · rcases hq2 with h2 | ⟨h2, hf2⟩
      · omega
      · rw [hflag] at hf2
        exact Bool.noConfusion hf2

theorem break_tail_disjoint {l : List TemporalSeq} (hwf : seqlist_wf l)
    (hsep : seqlist_sep l) {P : Period} {i j : Nat} (hij : i < j)
    (hj : j < l.length)
    (hbr : P.upper < (periodn l i).upper ∨
      (P.upper = (periodn l i).upper ∧ (periodn l i).upper_inc = true))
    {t : Int} (hPt : period_mem P t) (hm : period_mem (periodn l j) t) :
    False := by
  have hsep' := chain_sep_of_lt hwf hsep hij hj
  unfold seqpair_sep at hsep'
  obtain ⟨-, hP2⟩ := hPt
  obtain ⟨hm1, -⟩ := hm
  rcases hsep' with h | ⟨he, hn⟩
  · rcases hbr with h3 | ⟨h3, -⟩ <;> rcases hP2 with h1 | ⟨h1, -⟩ <;>
      rcases hm1 with h2 | ⟨h2, -⟩ <;> omega
  · rcases hbr with h3 | ⟨h3, hiu⟩
    · rcases hP2 with h1 | ⟨h1, -⟩ <;> rcases hm1 with h2 | ⟨h2, -⟩ <;> omega
    · have hjl : ¬ ((periodn l j).lower_inc = true) := fun hh => hn ⟨hiu, hh⟩
      rcases hP2 with h1 | ⟨h1, -⟩ <;> rcases hm1 with h2 | ⟨h2, h2i⟩
      · omega
      · exact hjl h2i
      · omega
      · exact hjl h2i

theorem at_period_loop_eq_break {l : List TemporalSeq} {P : Period} {i : Nat}
    (h : i < l.length) (hbr : at_period_break (seqarr_n l i) P) :
    temporals_at_period_loop l P i = at_period_keep (seqarr_n l i) P := by
  rw [temporals_at_period_loop]
  simp only [dif_pos h, if_pos hbr]

theorem at_period_loop_eq_cont {l : List TemporalSeq} {P : Period} {i : Nat}
    (h : i < l.length) (hbr : ¬ at_period_break (seqarr_n l i) P) :
    temporals_at_period_loop l P i =
      at_period_keep (seqarr_n l i) P ++ temporals_at_period_loop l P (i + 1) := by
  rw [temporals_at_period_loop]
  simp only [dif_pos h, if_neg hbr]

theorem at_period_loop_eq_exit {l : List TemporalSeq} {P : Period} {i : Nat}
    (h : ¬ i < l.length) :
    temporals_at_period_loop l P i = [] := by
  rw [temporals_at_period_loop]
  simp only [dif_neg h]

/-- The invariant established by the scan loop of `temporals_at_period`:
window containment, validity, pairwise separation and the exact time
extent of the collected sequences. -/
def at_period_loop_good (l : List TemporalSeq) (P : Period) (i : Nat) : Prop :=
  (∀ s ∈ temporals_at_period_loop l P i, ∃ j, i ≤ j ∧ j < l.length ∧
      contains_period_period_internal (periodn l j) s.period = true) ∧
  seqlist_wf (temporals_at_period_loop l P i) ∧
  List.Pairwise seqsep (temporals_at_period_loop l P i) ∧
  (∀ t, (∃ s ∈ temporals_at_period_loop l P i, period_mem s.period t) ↔
    (∃ j, i ≤ j ∧ j < l.length ∧ period_mem (periodn l j) t ∧ period_mem P t))

theorem at_period_loop_good_exit {l : List TemporalSeq} {P : Period} {i : Nat}
    (h : ¬ i < l.length) : at_period_loop_good l P i := by
  unfold at_period_loop_good
  rw [at_period_loop_eq_exit h]
  refine ⟨?_, ?_, List.Pairwise.nil, ?_⟩
  · intro s hs
    exact absurd hs (List.not_mem_nil s)
  · intro s hs
    exact absurd hs (List.not_mem_nil s)
  · intro t
    refine iff_of_false (by simp) ?_
    rintro ⟨j, hij, hjl, -⟩
    omega

theorem at_period_loop_spec {l : List TemporalSeq} (hwf : seqlist_wf l)
    (hsep : seqlist_sep l) {P : Period} (hP : period_valid P) :
    ∀ (d i : Nat), l.length ≤ i + d → at_period_loop_good l P i := by
  intro d
  induction d with
  | zero =>
    intro i hi
    exact at_period_loop_good_exit (by omega)
  | succ m ih =>
    intro i hilen
    by_cases hi : i < l.length
    · have hwfi : period_valid (periodn l i) := period_valid_of_wf hwf hi
      by_cases hbr : at_period_break (seqarr_n l i) P
      · unfold at_period_loop_good
        rw [at_period_loop_eq_break hi hbr]
        refine ⟨?_, ?_, at_period_keep_pairwise _ _, ?_⟩
        · intro s hs
          exact ⟨i, le_refl i, hi, at_period_keep_contains hs⟩
        · exact at_period_keep_valid hwfi hP
        · intro t
          rw [at_period_keep_mem]
          constructor
          · rintro ⟨hm, hmp⟩
            exact ⟨i, le_refl i, hi, hm, hmp⟩
          · rintro ⟨j, hij, hjl, hmj, hmp⟩
            rcases eq_or_lt_of_le hij with he | hlt
            · rw [← he] at hmj
              exact ⟨hmj, hmp⟩
            · exact (break_tail_disjoint hwf hsep hlt hjl
                ((at_period_break_iff _ _).mp hbr) hmp hmj).elim
      · have ihgood := ih (i + 1) (by omega)
        unfold at_period_loop_good at ihgood ⊢
        obtain ⟨ihc, ihwf, ihpw, ihm⟩ := ihgood
        rw [at_period_loop_eq_cont hi hbr]
        refine ⟨?_, ?_, ?_, ?_⟩
        · intro s hs
          rcases List.mem_append.mp hs with hk | ht
          · exact ⟨i, le_refl i, hi, at_period_keep_contains hk⟩
          · obtain ⟨j, hij, hjl, hc⟩ := ihc s ht
            exact ⟨j, by omega, hjl, hc⟩
        · intro s hs
          rcases List.mem_append.mp hs with hk | ht
          · exact at_period_keep_valid hwfi hP s hk
          · exact ihwf s ht
        · rw [List.pairwise_append]
          refine ⟨at_period_keep_pairwise _ _, ihpw, ?_⟩
          intro x hx y hy
          obtain ⟨j, hij, hjl, hcy⟩ := ihc y hy
          have hcx := at_period_keep_contains hx
          exact persep_of_windows (chain_sep_of_lt hwf hsep (by omega) hjl) hcx hcy
        · intro t
          constructor
          · rintro ⟨s, hs, hm⟩
            rcases List.mem_append.mp hs with hk | ht
            · obtain ⟨hm1, hm2⟩ := (at_period_keep_mem _ P t).mp ⟨s, hk, hm⟩
              exact ⟨i, le_refl i, hi, hm1, hm2⟩
            · obtain ⟨j, hij, hjl, hmj, hmp⟩ := (ihm t).mp ⟨s, ht, hm⟩
              exact ⟨j, by omega, hjl, hmj, hmp⟩
          · rintro ⟨j, hij, hjl, hmj, hmp⟩
            rcases eq_or_lt_of_le hij with he | hlt
            · obtain ⟨s, hs, hm⟩ := (at_period_keep_mem (seqarr_n l i) P t).mpr
                ⟨by rw [show (seqarr_n l i).period = periodn l j from by rw [he]; rfl]; exact hmj, hmp⟩
              exact ⟨s, List.mem_append_left _ hs, hm⟩
            · obtain ⟨s, hs, hm⟩ := (ihm t).mpr ⟨j, hlt, hjl, hmj, hmp⟩
              exact ⟨s, List.mem_append_right _ hs, hm⟩
    · exact at_period_loop_good_exit hi

theorem seqlist_sep_of_pairwise {l : List TemporalSeq}
    (h : List.Pairwise seqsep l) : seqlist_sep l := by
  intro i hi
  rw [List.pairwise_iff_getElem] at h
  have h2 := h i (i + 1) (by omega) hi (by omega)
  rwa [getElem_eq_seqarr_n _ i (by omega), getElem_eq_seqarr_n _ (i + 1) hi] at h2

theorem opt_mem_time_some (ts' : TemporalS) (t : Int) :
    opt_mem_time (some ts') t ↔ seqs_mem_time ts'.seqs t :=
  Iff.rfl

theorem opt_mem_time_none (t : Int) : ¬ opt_mem_time none t :=
  fun h => h

theorem find_timestamp_prefix_disjoint (ts : TemporalS)
    (hv : temporals_valid ts) (P : Period) :
    ∀ j < (temporals_find_timestamp ts P.lower).2.toNat, ∀ t, period_mem P t →
      period_mem (periodn ts.seqs j) t → False := by
  obtain ⟨hlen, hwf, hsep⟩ := hv
  have hspec := temporals_find_timestamp_loop_spec ts.seqs P.lower hwf hsep 0
    ((ts.seqs.length : Int) - 1) 0 default
  unfold find_loop_motive at hspec
  have hspec2 := hspec (by omega) (by omega)
    (fun i hi => absurd hi (by omega))
    (fun i hi1 hi2 => absurd hi2 (by omega))
    (Or.inl (by omega))
  intro j hj t hPt hjt
  cases hfd : (temporals_find_timestamp_loop ts.seqs P.lower 0
      ((ts.seqs.length : Int) - 1) 0 default).1 with
  | true =>
    obtain ⟨n0, hn0eq, hn0len, hn0mem⟩ := hspec2.1 hfd
    have ht : (temporals_find_timestamp ts P.lower).2.toNat = n0 := by
      show (temporals_find_timestamp_loop ts.seqs P.lower 0
        ((ts.seqs.length : Int) - 1) 0 default).2.toNat = n0
      rw [hn0eq]
      omega
    exact prefix_disjoint_found hwf hsep (by omega) hn0len hn0mem hPt hjt
  | false =>
    obtain ⟨ip, hipeq, hiplen, haft, hbef⟩ := hspec2.2 hfd
    have ht : (temporals_find_timestamp ts P.lower).2.toNat = ip := by
      show (temporals_find_timestamp_loop ts.seqs P.lower 0
        ((ts.seqs.length : Int) - 1) 0 default).2.toNat = ip
      rw [hipeq]
      omega
    exact prefix_disjoint_after (haft j (by omega)) hPt hjt

theorem temporals_at_period_spec (ts : TemporalS) (P : Period)
    (hv : temporals_valid ts) (hP : period_valid P)
    (hov : overlaps_period_period_internal (temporals_timespan ts) P = true) :
    ∃ a, temporals_at_period ts P = .ok a ∧
      ∀ t, opt_mem_time a t ↔ (seqs_mem_time ts.seqs t ∧ period_mem P t) := by
  obtain ⟨hlen, hwf, hsep⟩ := hv
  unfold temporals_at_period
  by_cases h1 : ts.seqs.length = 1
  · rw [if_pos h1]
    obtain ⟨s0, hs0⟩ := List.length_eq_one.mp h1
    have hts : (temporals_seq_n ts 0).period = s0.period := by
      unfold temporals_seq_n seqarr_n
      rw [hs0]
      rfl
    have hspan : temporals_timespan ts = s0.period := by
      unfold temporals_timespan periodn seqarr_n
      rw [hs0]
      rfl
    have hov0 : overlaps_period_period_internal
        (temporals_seq_n ts 0).period P = true := by
      rw [hts, ← hspan]
      exact hov
    obtain ⟨sres, hsres⟩ := at_period_some_of_overlaps hov0
    rw [hsres]
    dsimp only
    have hcons := constructor_false_ok_of_valid (l := [sres]) (by simp) (by rfl)
    rw [hcons]
    refine ⟨some ⟨[sres], temporals_make_bbox [sres]⟩, rfl, ?_⟩
    intro t
    rw [opt_mem_time_some]
    have hmem : period_mem sres.period t ↔
        (period_mem s0.period t ∧ period_mem P t) := by
      have hi := at_period_some_inter hsres
      rw [hts] at hi
      exact intersection_mem hi t
    unfold seqs_mem_time
    simp only [List.mem_singleton, exists_eq_left]
    rw [hmem, hs0]
    simp only [List.mem_singleton, exists_eq_left]
  · rw [if_neg h1]
    have hlen2 : 2 ≤ ts.seqs.length := by omega
    have hPD := find_timestamp_prefix_disjoint ts ⟨hlen, hwf, hsep⟩ P
    obtain ⟨n', hn'⟩ : ∃ n', (temporals_find_timestamp ts P.lower).2.toNat = n' :=
      ⟨_, rfl⟩
    have hgood := at_period_loop_spec hwf hsep hP ts.seqs.length n' (by omega)
    unfold at_period_loop_good at hgood
    obtain ⟨hgc, hgwf, hgpw, hgm⟩ := hgood
    rw [hn'] at hPD
    dsimp only
    rw [hn']
    by_cases hKnil : temporals_at_period_loop ts.seqs P n' = []
    · rw [if_pos hKnil]
      refine ⟨none, rfl, ?_⟩
      intro t
      refine iff_of_false (opt_mem_time_none t) ?_
      rintro ⟨hst, hPt⟩
      rw [seqs_mem_time_iff_index] at hst
      obtain ⟨j, hjlen, hjm⟩ := hst
      by_cases hjn : j < n'
      · exact hPD j hjn t hPt hjm
      · have h2 := (hgm t).mpr ⟨j, by omega, hjlen, hjm, hPt⟩
        rw [hKnil] at h2
        obtain ⟨s, hs, -⟩ := h2
        exact absurd hs (List.not_mem_nil s)
    · rw [if_neg hKnil]
      have hsepK : seqlist_sep (temporals_at_period_loop ts.seqs P n') :=
        seqlist_sep_of_pairwise hgpw
      have hlenK : 1 ≤ (temporals_at_period_loop ts.seqs P n').length := by
        cases hc : temporals_at_period_loop ts.seqs P n' with
        | nil => exact absurd hc hKnil
        | cons a as => simp
      have hcons := constructor_false_ok_of_valid hlenK (seqarr_ok_of_sep hsepK)
      rw [hcons]
      refine ⟨some ⟨temporals_at_period_loop ts.seqs P n',
        temporals_make_bbox (temporals_at_period_loop ts.seqs P n')⟩, rfl, ?_⟩
      intro t
      rw [opt_mem_time_some]
      constructor
      · intro h
        obtain ⟨j, hij, hjl, hmj, hmp⟩ := (hgm t).mp h
        refine ⟨?_, hmp⟩
        rw [seqs_mem_time_iff_index]
        exact ⟨j, hjl, hmj⟩
      · rintro ⟨hst, hPt⟩
        rw [seqs_mem_time_iff_index] at hst
        obtain ⟨j, hjlen, hjm⟩ := hst
        by_cases hjn : j < n'
        · exact (hPD j hjn t hPt hjm).elim
        · exact (hgm t).mpr ⟨j, by omega, hjlen, hjm, hPt⟩

theorem minus_pieces_contained {r P : Period} :
    ∀ x ∈ minus_period_period r P, contains_period_period_internal r x = true := by
  intro x hx
  unfold minus_period_period at hx
  by_cases hov : overlaps_period_period_internal r P = true
  · rw [if_pos hov] at hx
    unfold overlaps_period_period_internal at hov
    rw [List.mem_append] at hx
    rcases hx with hx | hx
    · by_cases hc1 : r.lower < P.lower ∨
          (r.lower = P.lower ∧ r.lower_inc = true ∧ P.lower_inc = false)
      · rw [if_pos hc1] at hx
        rw [List.mem_singleton] at hx
        subst hx
        unfold contains_period_period_internal
        cases hrl : r.lower_inc <;> cases hru : r.upper_inc <;>
          cases hpl : P.lower_inc <;> cases hpu : P.upper_inc <;>
            simp [hrl, hru, hpl, hpu] at hov hc1 ⊢ <;> omega
      · rw [if_neg hc1] at hx
        exact absurd hx (List.not_mem_nil x)
    · by_cases hc2 : P.upper < r.upper ∨
          (P.upper = r.upper ∧ r.upper_inc = true ∧ P.upper_inc = false)
      · rw [if_pos hc2] at hx
        rw [List.mem_singleton] at hx
        subst hx
        unfold contains_period_period_internal
        cases hrl : r.lower_inc <;> cases hru : r.upper_inc <;>
          cases hpl : P.lower_inc <;> cases hpu : P.upper_inc <;>
            simp [hrl, hru, hpl, hpu] at hov hc2 ⊢ <;> omega
      · rw [if_neg hc2] at hx
        exact absurd hx (List.not_mem_nil x)
  · rw [if_neg hov] at hx
    rw [List.mem_singleton] at hx
    subst hx
    exact contains_pp_refl _

theorem minus_pieces_valid {r P : Period} (hr : period_valid r)
    (hP : period_valid P) :
    ∀ x ∈ minus_period_period r P, period_valid x := by
  intro x hx
  obtain ⟨hr1, hr2⟩ := hr
  obtain ⟨hP1, hP2⟩ := hP
  unfold minus_period_period at hx
  by_cases hov : overlaps_period_period_internal r P = true
  · rw [if_pos hov] at hx
    unfold overlaps_period_period_internal at hov
    rw [List.mem_append] at hx
    rcases hx with hx | hx
    · by_cases hc1 : r.lower < P.lower ∨
          (r.lower = P.lower ∧ r.lower_inc = true ∧ P.lower_inc = false)
      · rw [if_pos hc1] at hx
        rw [List.mem_singleton] at hx
        subst hx
        unfold period_valid
        cases hrl : r.lower_inc <;> cases hru : r.upper_inc <;>
          cases hpl : P.lower_inc <;> cases hpu : P.upper_inc <;>
            simp [hrl, hru, hpl, hpu] at hov hc1 ⊢ <;> omega
      · rw [if_neg hc1] at hx
        exact absurd hx (List.not_mem_nil x)
    · by_cases hc2 : P.upper < r.upper ∨
          (P.upper = r.upper ∧ r.upper_inc = true ∧ P.upper_inc = false)
      · rw [if_pos hc2] at hx
        rw [List.mem_singleton] at hx
        subst hx
        unfold period_valid
        cases hrl : r.lower_inc <;> cases hru : r.upper_inc <;>
          cases hpl : P.lower_inc <;> cases hpu : P.upper_inc <;>
            simp [hrl, hru, hpl, hpu] at hov hc2 ⊢ <;> omega
      · rw [if_neg hc2] at hx
        exact absurd hx (List.not_mem_nil x)
  · rw [if_neg hov] at hx
    rw [List.mem_singleton] at hx
    subst hx
    exact ⟨hr1, hr2⟩

theorem minus_pieces_pairwise {r P : Period} (hP : period_valid P) :
    List.Pairwise seqpair_sep (minus_period_period r P) := by
  obtain ⟨hP1, hP2⟩ := hP
  unfold minus_period_period
  by_cases hov : overlaps_period_period_internal r P = true
  · rw [if_pos hov]
    by_cases hc1 : r.lower < P.lower ∨
        (r.lower = P.lower ∧ r.lower_inc = true ∧ P.lower_inc = false)
    · rw [if_pos hc1]
      by_cases hc2 : P.upper < r.upper ∨
          (P.upper = r.upper ∧ r.upper_inc = true ∧ P.upper_inc = false)
      · rw [if_pos hc2, List.singleton_append]
        refine List.Pairwise.cons ?_ (List.pairwise_singleton _ _)
        intro y hy
        rw [List.mem_singleton] at hy
        subst hy
        unfold seqpair_sep
        dsimp only
        rcases lt_or_eq_of_le hP1 with h | h
        · exact Or.inl h
        · refine Or.inr ⟨h, ?_⟩
          rintro ⟨hf, -⟩
          rw [(hP2 h).1] at hf
          exact Bool.noConfusion hf
      · rw [if_neg hc2, List.append_nil]
        exact List.pairwise_singleton _ _
    · rw [if_neg hc1, List.nil_append]
      by_cases hc2 : P.upper < r.upper ∨
          (P.upper = r.upper ∧ r.upper_inc = true ∧ P.upper_inc = false)
      · rw [if_pos hc2]
        exact List.pairwise_singleton _ _
      · rw [if_neg hc2]
        exact List.Pairwise.nil
  · rw [if_neg hov]
    exact List.pairwise_singleton _ _

/-- Flag-aware subsets of pairwise-separated windows, grouped per window
with each group internally separated, flatten to a pairwise-separated
list. -/
theorem pairwise_sep_flatten {α β : Type} {l : List α} {f : α → List β}
    {w : α → Period} {v : β → Period}
    (hw : List.Pairwise (fun a b => seqpair_sep (w a) (w b)) l)
    (hcont : ∀ a ∈ l, ∀ x ∈ f a,
      contains_period_period_internal (w a) (v x) = true)
    (hin : ∀ a ∈ l, List.Pairwise (fun x y => seqpair_sep (v x) (v y)) (f a)) :
    List.Pairwise (fun x y => seqpair_sep (v x) (v y)) ((l.map f).flatten) := by
  induction l with
  | nil => simp
  | cons a rest ih =>
    rw [List.map_cons, List.flatten_cons, List.pairwise_append]
    rw [List.pairwise_cons] at hw
    refine ⟨hin a (List.mem_cons_self a rest),
      ih hw.2 (fun b hb => hcont b (List.mem_cons_of_mem a hb))
        (fun b hb => hin b (List.mem_cons_of_mem a hb)), ?_⟩
    intro x hx y hy
    rw [List.mem_flatten] at hy
    obtain ⟨g, hg, hyg⟩ := hy
    rw [List.mem_map] at hg
    obtain ⟨b, hb, hgb⟩ := hg
    exact persep_of_windows (hw.1 b hb) (hcont a (List.mem_cons_self a rest) x hx)
      (hcont b (List.mem_cons_of_mem a hb) y (hgb ▸ hyg))

/-- The kept images of a partial map out of a pairwise-separated window
list are pairwise separated. -/
theorem pairwise_sep_filterMap {α β : Type} {l : List α} {g : α → Option β}
    {w : α → Period} {v : β → Period}
    (hw : List.Pairwise (fun a b => seqpair_sep (w a) (w b)) l)
    (hcont : ∀ a ∈ l, ∀ x, g a = some x →
      contains_period_period_internal (w a) (v x) = true) :
    List.Pairwise (fun x y => seqpair_sep (v x) (v y)) (l.filterMap g) := by
  induction l with
  | nil => simp
  | cons a rest ih =>
    rw [List.pairwise_cons] at hw
    rw [List.filterMap_cons]
    cases hg : g a with
    | none => exact ih hw.2 (fun b hb x hx => hcont b (List.mem_cons_of_mem a hb) x hx)
    | some x =>
      rw [List.pairwise_cons]
      refine ⟨?_, ih hw.2 (fun b hb y hy => hcont b (List.mem_cons_of_mem a hb) y hy)⟩
      intro y hy
      rw [List.mem_filterMap] at hy
      obtain ⟨b, hb, hby⟩ := hy
      exact persep_of_windows (hw.1 b hb) (hcont a (List.mem_cons_self a rest) x hg)
        (hcont b (List.mem_cons_of_mem a hb) y hby)

theorem minus_flatten_mem (ps : List Period) (P : Period)
    (hP : period_valid P) (t : Int) :
    periods_mem_time ((ps.map (fun r => minus_period_period r P)).flatten) t ↔
      (periods_mem_time ps t ∧ ¬ period_mem P t) := by
  unfold periods_mem_time
  constructor
  · rintro ⟨x, hx, hm⟩
    rw [List.mem_flatten] at hx
    obtain ⟨g, hg, hxg⟩ := hx
    rw [List.mem_map] at hg
    obtain ⟨r, hr, hgr⟩ := hg
    have h2 := (minus_period_period_mem hP t).mp ⟨x, hgr ▸ hxg, hm⟩
    exact ⟨⟨r, hr, h2.1⟩, h2.2⟩
  · rintro ⟨⟨r, hr, hm⟩, hn⟩
    obtain ⟨x, hx, hxm⟩ := (minus_period_period_mem hP t).mpr ⟨hm, hn⟩
    exact ⟨x, List.mem_flatten.mpr ⟨_, List.mem_map_of_mem _ hr, hx⟩, hxm⟩

theorem seqlist_wf_cons (s : TemporalSeq) (l : List TemporalSeq) :
    seqlist_wf (s :: l) ↔ (period_valid s.period ∧ seqlist_wf l) := by
  unfold seqlist_wf
  simp

theorem merge_valid {s1 s2 : TemporalSeq} (h1 : period_valid s1.period)
    (h2 : period_valid s2.period) (hcm : temporalseq_can_merge s1 s2 = true) :
    period_valid (temporalseq_merge s1 s2).period := by
  obtain ⟨h1a, h1b⟩ := h1
  obtain ⟨h2a, h2b⟩ := h2
  simp only [temporalseq_can_merge, Bool.and_eq_true, Bool.or_eq_true,
    beq_iff_eq] at hcm
  obtain ⟨⟨he, hor⟩, -⟩ := hcm
  unfold temporalseq_merge period_valid
  dsimp only
  refine ⟨by omega, fun hd => ?_⟩
  have hd1 : s1.period.lower = s1.period.upper := by omega
  have hd2 : s2.period.lower = s2.period.upper := by omega
  exact ⟨(h1b hd1).1, (h2b hd2).2⟩

theorem merge_mem {s1 s2 : TemporalSeq} (h1 : period_valid s1.period)
    (h2 : period_valid s2.period) (hcm : temporalseq_can_merge s1 s2 = true)
    (t : Int) :
    period_mem (temporalseq_merge s1 s2).period t ↔
      (period_mem s1.period t ∨ period_mem s2.period t) := by
  obtain ⟨h1a, h1b⟩ := h1
  obtain ⟨h2a, h2b⟩ := h2
  simp only [temporalseq_can_merge, Bool.and_eq_true, Bool.or_eq_true,
    beq_iff_eq] at hcm
  obtain ⟨⟨he, hor⟩, -⟩ := hcm
  unfold temporalseq_merge period_mem
  dsimp only
  cases ha : s1.period.lower_inc <;> cases hb : s1.period.upper_inc <;>
    cases hc : s2.period.lower_inc <;> cases hd : s2.period.upper_inc <;>
      simp [ha, hb, hc, hd] at h1b h2b hor ⊢ <;> omega

theorem normalize_spec : ∀ (n : Nat) (l : List TemporalSeq), l.length ≤ n →
    seqlist_wf l →
    (seqlist_wf (temporalseqarr_normalize l) ∧
     ∀ t, seqs_mem_time (temporalseqarr_normalize l) t ↔ seqs_mem_time l t) := by
  intro n
  induction n with
  | zero =>
    intro l hl hwf
    have hnil : l = [] := List.length_eq_zero.mp (by omega)
    subst hnil
    rw [temporalseqarr_normalize]
    exact ⟨hwf, fun t => Iff.rfl⟩
  | succ m ih =>
    intro l hl hwf
    match l with
    | [] =>
      rw [temporalseqarr_normalize]
      exact ⟨hwf, fun t => Iff.rfl⟩
    | [s] =>
      rw [temporalseqarr_normalize]
      exact ⟨hwf, fun t => Iff.rfl⟩
    | s1 :: s2 :: rest =>
      rw [temporalseqarr_normalize]
      rw [seqlist_wf_cons, seqlist_wf_cons] at hwf
      obtain ⟨hv1, hv2, hwfr⟩ := hwf
      by_cases hcm : temporalseq_can_merge s1 s2 = true
      · rw [if_pos hcm]
        have hwfm : seqlist_wf (temporalseq_merge s1 s2 :: rest) := by
          rw [seqlist_wf_cons]
          exact ⟨merge_valid hv1 hv2 hcm, hwfr⟩
        obtain ⟨ihwf, ihm⟩ := ih (temporalseq_merge s1 s2 :: rest)
          (by simp at hl ⊢; omega) hwfm
        refine ⟨ihwf, fun t => ?_⟩
        rw [ihm t, seqs_mem_time_cons, seqs_mem_time_cons, seqs_mem_time_cons,
          merge_mem hv1 hv2 hcm]
        tauto
      · rw [if_neg hcm]
        obtain ⟨ihwf, ihm⟩ := ih (s2 :: rest) (by simp at hl ⊢; omega)
          (by rw [seqlist_wf_cons]; exact ⟨hv2, hwfr⟩)
        refine ⟨?_, fun t => ?_⟩
        · rw [seqlist_wf_cons]
          exact ⟨hv1, ihwf⟩
        · rw [seqs_mem_time_cons, seqs_mem_time_cons, ihm t]

/-- With `normalize = true` a valid nonempty list that passes the pair
scan constructs successfully, and the time extent survives the merging
of adjacent compatible sequences. -/
theorem constructor_true_ok {l : List TemporalSeq} (hlen : 1 ≤ l.length)
    (hwf : seqlist_wf l) (hok : temporals_seqarr_ok l = true) :
    ∃ ts, temporals_from_temporalseqarr l true = .ok ts ∧
      ∀ t, seqs_mem_time ts.seqs t ↔ seqs_mem_time l t := by
  unfold temporals_from_temporalseqarr
  rw [if_neg (by omega), if_neg (by simp [hok])]
  by_cases h2 : l.length > 1
  · rw [if_pos (by simp [h2])]
    refine ⟨_, rfl, fun t => ?_⟩
    exact (normalize_spec l.length l (le_refl _) hwf).2 t
  · rw [if_neg (by simp [h2])]
    exact ⟨_, rfl, fun t => Iff.rfl⟩

theorem at_periodset1_mem (seq : TemporalSeq) (qs : List Period) (t : Int) :
    (∃ s ∈ temporalseq_at_periodset1 seq qs, period_mem s.period t) ↔
      (period_mem seq.period t ∧ periods_mem_time qs t) := by
  unfold temporalseq_at_periodset1 periods_mem_time
  constructor
  · rintro ⟨s, hs, hm⟩
    rw [List.mem_filterMap] at hs
    obtain ⟨q, hq, hsq⟩ := hs
    rw [intersection_mem (at_period_some_inter hsq)] at hm
    exact ⟨hm.1, q, hq, hm.2⟩
  · rintro ⟨hm, q, hq, hmq⟩
    have hov : overlaps_period_period_internal seq.period q = true := by
      cases h : overlaps_period_period_internal seq.period q
      · exact (not_overlaps_disjoint h hm hmq).elim
      · rfl
    obtain ⟨s, hs⟩ := at_period_some_of_overlaps hov
    refine ⟨s, List.mem_filterMap.mpr ⟨q, hq, hs⟩, ?_⟩
    rw [intersection_mem (at_period_some_inter hs)]
    exact ⟨hm, hmq⟩

theorem at_periodset1_wf {seq : TemporalSeq} (hsv : period_valid seq.period)
    {qs : List Period} (hqv : ∀ q ∈ qs, period_valid q) :
    seqlist_wf (temporalseq_at_periodset1 seq qs) := by
  intro s hs
  rw [temporalseq_at_periodset1, List.mem_filterMap] at hs
  obtain ⟨q, hq, hsq⟩ := hs
  exact intersection_valid hsv (hqv q hq) (at_period_some_inter hsq)

theorem at_periodset1_pairwise (seq : TemporalSeq) {qs : List Period}
    (hq : List.Pairwise seqpair_sep qs) :
    List.Pairwise seqsep (temporalseq_at_periodset1 seq qs) := by
  unfold temporalseq_at_periodset1
  exact pairwise_sep_filterMap hq
    (fun q hqm s hs => intersection_contains_right (at_period_some_inter hs))

theorem at_periodset_allseqs_mem (l : List TemporalSeq) (qs : List Period)
    (t : Int) :
    seqs_mem_time
        ((l.map (fun seq => temporalseq_at_periodset1 seq qs)).flatten) t ↔
      (seqs_mem_time l t ∧ periods_mem_time qs t) := by
  unfold seqs_mem_time
  constructor
  · rintro ⟨s, hs, hm⟩
    rw [List.mem_flatten] at hs
    obtain ⟨g, hg, hsg⟩ := hs
    rw [List.mem_map] at hg
    obtain ⟨seq, hseq, hgeq⟩ := hg
    have h2 := (at_periodset1_mem seq qs t).mp ⟨s, hgeq ▸ hsg, hm⟩
    exact ⟨⟨seq, hseq, h2.1⟩, h2.2⟩
  · rintro ⟨⟨seq, hseq, hm⟩, hq⟩
    obtain ⟨s, hs, hsm⟩ := (at_periodset1_mem seq qs t).mpr ⟨hm, hq⟩
    refine ⟨s, ?_, hsm⟩
    rw [List.mem_flatten]
    exact ⟨temporalseq_at_periodset1 seq qs, List.mem_map_of_mem _ hseq, hs⟩

theorem temporals_at_periodset_spec (ts : TemporalS) (qs : List Period)
    (hlen2 : 2 ≤ ts.seqs.length) (hwf : seqlist_wf ts.seqs)
    (hsep : seqlist_sep ts.seqs)
    (hqw : List.Pairwise seqpair_sep qs)
    (hqv : ∀ q ∈ qs, period_valid q) :
    ∃ a, temporals_at_periodset ts qs = .ok a ∧
      ∀ t, opt_mem_time a t ↔
        (seqs_mem_time ts.seqs t ∧ periods_mem_time qs t) := by
  unfold temporals_at_periodset
  rw [if_neg (by omega)]
  dsimp only
  by_cases hA :
      (ts.seqs.map (fun seq => temporalseq_at_periodset1 seq qs)).flatten = []
  · rw [if_pos hA]
    refine ⟨none, rfl, fun t => ?_⟩
    refine iff_of_false (opt_mem_time_none t) ?_
    intro hrhs
    have h2 := (at_periodset_allseqs_mem ts.seqs qs t).mpr hrhs
    rw [hA] at h2
    obtain ⟨s, hs, -⟩ := h2
    exact absurd hs (List.not_mem_nil s)
  · rw [if_neg hA]
    have hwfA : seqlist_wf
        ((ts.seqs.map (fun seq => temporalseq_at_periodset1 seq qs)).flatten) := by
      intro s hs
      rw [List.mem_flatten] at hs
      obtain ⟨g, hg, hsg⟩ := hs
      rw [List.mem_map] at hg
      obtain ⟨seq, hseq, hgeq⟩ := hg
      exact at_periodset1_wf (hwf seq hseq) hqv s (hgeq ▸ hsg)
    have hpwA : List.Pairwise seqsep
        ((ts.seqs.map (fun seq => temporalseq_at_periodset1 seq qs)).flatten) := by
      refine pairwise_sep_flatten (w := fun s => s.period) ?_ ?_ ?_
      · exact (List.pairwise_map.mp (pairwise_sep_periods hwf hsep))
      · intro seq hseq x hx
        rw [temporalseq_at_periodset1, List.mem_filterMap] at hx
        obtain ⟨q, hq, hxq⟩ := hx
        exact intersection_contains_left (at_period_some_inter hxq)
      · exact fun seq hseq => at_periodset1_pairwise seq hqw
    have hlenA : 1 ≤
        ((ts.seqs.map (fun seq => temporalseq_at_periodset1 seq qs)).flatten).length := by
      cases hc :
          (ts.seqs.map (fun seq => temporalseq_at_periodset1 seq qs)).flatten with
      | nil => exact absurd hc hA
      | cons a as => simp
    obtain ⟨ts', hts', hext⟩ := constructor_true_ok hlenA hwfA
      (seqarr_ok_of_sep (seqlist_sep_of_pairwise hpwA))
    rw [hts']
    refine ⟨some ts', rfl, fun t => ?_⟩
    rw [opt_mem_time_some]
    exact (hext t).trans (at_periodset_allseqs_mem ts.seqs qs t)

theorem get_time_mem (ts : TemporalS) (t : Int) :
    periods_mem_time (temporals_get_time ts) t ↔ seqs_mem_time ts.seqs t := by
  unfold temporals_get_time periods_mem_time seqs_mem_time
  constructor
  · rintro ⟨p, hp, hm⟩
    rw [List.mem_map] at hp
    obtain ⟨s, hs, hsp⟩ := hp
    exact ⟨s, hs, hsp ▸ hm⟩
  · rintro ⟨s, hs, hm⟩
    exact ⟨s.period, List.mem_map_of_mem _ hs, hm⟩

theorem temporals_minus_period_spec (ts : TemporalS) (P : Period)
    (hv : temporals_valid ts) (hP : period_valid P)
    (hrem : ts.seqs.length = 1 ∨
      minus_periodset_period_internal (temporals_get_time ts) P ≠ none) :
    ∃ m, temporals_minus_period ts P = .ok m ∧
      ∀ t, opt_mem_time m t ↔ (seqs_mem_time ts.seqs t ∧ ¬ period_mem P t) := by
  obtain ⟨hlen, hwf, hsep⟩ := hv
  unfold temporals_minus_period
  by_cases h1 : ts.seqs.length = 1
  · rw [if_pos h1]
    obtain ⟨s0, hs0⟩ := List.length_eq_one.mp h1
    have hv0 : period_valid s0.period := hwf s0 (by rw [hs0]; simp)
    have hseq0 : temporals_seq_n ts 0 = s0 := by
      unfold temporals_seq_n seqarr_n
      rw [hs0]
      rfl
    unfold temporalseq_minus_period
    rw [hseq0]
    unfold minus_periodset_period_internal
    dsimp only
    have hfl : ([s0.period].map (fun r => minus_period_period r P)).flatten =
        minus_period_period s0.period P := by
      simp
    rw [hfl]
    by_cases hM : minus_period_period s0.period P = []
    · rw [if_pos hM]
      dsimp only
      refine ⟨none, rfl, fun t => ?_⟩
      refine iff_of_false (opt_mem_time_none t) ?_
      rintro ⟨hst, hnP⟩
      rw [hs0] at hst
      obtain ⟨s, hsm, hm⟩ := hst
      rw [List.mem_singleton] at hsm
      rw [hsm] at hm
      obtain ⟨x, hx, -⟩ := (minus_period_period_mem hP t).mpr ⟨hm, hnP⟩
      rw [hM] at hx
      exact absurd hx (List.not_mem_nil x)
    · rw [if_neg hM]
      dsimp only
      unfold temporalseq_at_periodset
      dsimp only
      have hMw : List.Pairwise seqpair_sep (minus_period_period s0.period P) :=
        minus_pieces_pairwise hP
      have hMv : ∀ q ∈ minus_period_period s0.period P, period_valid q :=
        minus_pieces_valid hv0 hP
      have hne : ¬ (temporalseq_at_periodset1 s0
          (minus_period_period s0.period P) = []) := by
        intro hcon
        cases hMc : minus_period_period s0.period P with
        | nil => exact absurd hMc hM
        | cons x rest =>
          have hxmem : x ∈ minus_period_period s0.period P := by
            rw [hMc]
            exact List.mem_cons_self x rest
          have hovx : overlaps_period_period_internal s0.period x = true :=
            overlaps_of_contains (minus_pieces_contained x hxmem) (hMv x hxmem)
          obtain ⟨s, hs⟩ := at_period_some_of_overlaps hovx
          have hsm : s ∈ temporalseq_at_periodset1 s0
              (minus_period_period s0.period P) :=
            List.mem_filterMap.mpr ⟨x, hxmem, hs⟩
          rw [hcon] at hsm
          exact absurd hsm (List.not_mem_nil s)
      rw [if_neg hne]
      have hsepp := seqlist_sep_of_pairwise (at_periodset1_pairwise s0 hMw)
      have hlenp : 1 ≤ (temporalseq_at_periodset1 s0
          (minus_period_period s0.period P)).length := by
        cases hc : temporalseq_at_periodset1 s0 (minus_period_period s0.period P) with
        | nil => exact absurd hc hne
        | cons a as => simp
      have hcons := constructor_false_ok_of_valid hlenp (seqarr_ok_of_sep hsepp)
      rw [hcons]
      refine ⟨some ⟨temporalseq_at_periodset1 s0 (minus_period_period s0.period P),
        temporals_make_bbox (temporalseq_at_periodset1 s0
          (minus_period_period s0.period P))⟩, rfl, fun t => ?_⟩
      rw [opt_mem_time_some]
      have h3 := at_periodset1_mem s0 (minus_period_period s0.period P) t
      have h4 : periods_mem_time (minus_period_period s0.period P) t ↔
          (period_mem s0.period t ∧ ¬ period_mem P t) :=
        minus_period_period_mem hP t
      rw [hs0]
      constructor
      · intro h
        have h5 := h3.mp h
        have h6 := h4.mp h5.2
        exact ⟨⟨s0, by simp, h6.1⟩, h6.2⟩
      · rintro ⟨hst, hnP⟩
        have hm0 : period_mem s0.period t := by
          obtain ⟨s, hsm, hm⟩ := hst
          rw [List.mem_singleton] at hsm
          rw [hsm] at hm
          exact hm
        exact h3.mpr ⟨hm0, h4.mpr ⟨hm0, hnP⟩⟩
  · rw [if_neg h1]
    have hlen2 : 2 ≤ ts.seqs.length := by omega
    unfold minus_periodset_period_internal
    dsimp only
    by_cases hM : ((temporals_get_time ts).map
        (fun r => minus_period_period r P)).flatten = []
    · exfalso
      rcases hrem with h1a | hne
      · exact h1 h1a
      · refine hne ?_
        unfold minus_periodset_period_internal
        dsimp only
        rw [if_pos hM]
    · rw [if_neg hM]
      dsimp only
      have hqw : List.Pairwise seqpair_sep (((temporals_get_time ts).map
          (fun r => minus_period_period r P)).flatten) := by
        refine pairwise_sep_flatten (w := id) (v := id) ?_ ?_ ?_
        · exact pairwise_sep_periods hwf hsep
        · exact fun r hr x hx => minus_pieces_contained x hx
        · exact fun r hr => minus_pieces_pairwise hP
      have hqv : ∀ q ∈ ((temporals_get_time ts).map
          (fun r => minus_period_period r P)).flatten, period_valid q := by
        intro q hq
        rw [List.mem_flatten] at hq
        obtain ⟨g, hg, hqg⟩ := hq
        rw [List.mem_map] at hg
        obtain ⟨r, hr, hgr⟩ := hg
        have hrv : period_valid r := by
          unfold temporals_get_time at hr
          rw [List.mem_map] at hr
          obtain ⟨s, hs, hsr⟩ := hr
          rw [← hsr]
          exact hwf s hs
        exact minus_pieces_valid hrv hP q (hgr ▸ hqg)
      obtain ⟨a, ha, hext⟩ := temporals_at_periodset_spec ts _ hlen2 hwf hsep hqw hqv
      rw [ha]
      refine ⟨a, rfl, fun t => ?_⟩
      rw [hext t, minus_flatten_mem (temporals_get_time ts) P hP t,
        get_time_mem ts t]
      tauto

/-- A valid two-sequence set over `[0,10]` and `[20,30]`, with values 1
and 2. -/
def exC5 : TemporalS :=
  ⟨[⟨[⟨1, 0⟩, ⟨1, 10⟩], ⟨0, 10, true, true⟩⟩,
    ⟨[⟨2, 20⟩, ⟨2, 30⟩], ⟨20, 30, true, true⟩⟩], default⟩

/-- The period `[5,25]`, overlapping both sequences of `exC5`. -/
def exC5P : Period := ⟨5, 25, true, true⟩

/-- A valid singleton sequence set over `[0,1]`. -/
def exC5single : TemporalS := ⟨[⟨[⟨1, 0⟩, ⟨1, 1⟩], ⟨0, 1, true, true⟩⟩], default⟩

/-- The period `[5,6]`, disjoint from the time span of `exC5single`. -/
def exC5Pfar : Period := ⟨5, 6, true, true⟩

/-- The period `[0,30]`, covering the whole time extent of `exC5`. -/
def exC5cover : Period := ⟨0, 30, true, true⟩

/-- Claim C5 (counterexample to the literal statement): the partition law
cannot hold for every valid sequence set `s` and period `P`, on two
counts.  First, on a valid singleton set whose time span is disjoint
from the (valid) period, the singleton branch of `temporals_at_period`
(TemporalS.c line 1760) passes the `NULL` result of
`temporalseq_at_period` straight into the constructor, which
dereferences it; the dereference is modelled as an error, so
`temporals_at_period` produces no result at all — the code comment at
lines 1751-1752 documents the missing precondition that a bounding-box
overlap test has been done before.  Second, even under that overlap
precondition, when the period covers the set's whole time extent the
general case of `temporals_minus_period` gets `resultps == NULL` from
the subtraction and line 1817 still executes `pfree(resultps)`
unconditionally, freeing a `NULL` pointer — also modelled as an error —
so no partition result exists there either. -/
theorem C5_at_period_singleton_counterexample :
    (temporals_valid exC5single ∧ period_valid exC5Pfar ∧
     temporals_at_period exC5single exC5Pfar = .error ()) ∧
    (temporals_valid exC5 ∧ period_valid exC5cover ∧
     overlaps_period_period_internal (temporals_timespan exC5) exC5cover = true ∧
     temporals_minus_period exC5 exC5cover = .error ()) :=
  ⟨⟨by decide, by decide, by rfl⟩, ⟨by decide, by decide, by decide, by rfl⟩⟩

/-- Claim C5 (amended): for every valid sequence set and valid period
whose span overlaps the set's bounding timespan (the documented
bounding-box precondition) and, for a set of more than one sequence,
whose subtraction from the set's time extent leaves a nonempty
remainder (otherwise line 1817 frees the `NULL` remainder),
`temporals_at_period` and `temporals_minus_period` both succeed, their
time extents are disjoint, and the union of their time extents is
exactly the time domain `temporals_get_time` of the original set. -/
theorem C5_at_minus_period_partition (ts : TemporalS) (P : Period)
    (hv : temporals_valid ts) (hP : period_valid P)
    (hov : overlaps_period_period_internal (temporals_timespan ts) P = true)
    (hrem : ts.seqs.length = 1 ∨
      minus_periodset_period_internal (temporals_get_time ts) P ≠ none) :
    ∃ a m, temporals_at_period ts P = .ok a ∧
      temporals_minus_period ts P = .ok m ∧
      (∀ t, ¬ (opt_mem_time a t ∧ opt_mem_time m t)) ∧
      (∀ t, (opt_mem_time a t ∨ opt_mem_time m t) ↔
        periods_mem_time (temporals_get_time ts) t) := by
  obtain ⟨a, ha, hae⟩ := temporals_at_period_spec ts P hv hP hov
  obtain ⟨m, hm, hme⟩ := temporals_minus_period_spec ts P hv hP hrem
  refine ⟨a, m, ha, hm, ?_, ?_⟩
  · rintro t ⟨h1, h2⟩
    rw [hae t] at h1
    rw [hme t] at h2
    exact h2.2 h1.2
  · intro t
    rw [hae t, hme t, get_time_mem ts t]
    by_cases hPt : period_mem P t <;> tauto

/-- The amended claim C5 holds on the concrete two-sequence set `exC5`
restricted to `[5,25]`. -/
theorem C5_at_minus_period_partition_witness :
    temporals_valid exC5 ∧ period_valid exC5P ∧
    overlaps_period_period_internal (temporals_timespan exC5) exC5P = true ∧
    (exC5.seqs.length = 1 ∨
      minus_periodset_period_internal (temporals_get_time exC5) exC5P ≠ none) ∧
    (∃ a m, temporals_at_period exC5 exC5P = .ok a ∧
      temporals_minus_period exC5 exC5P = .ok m ∧
      (∀ t, ¬ (opt_mem_time a t ∧ opt_mem_time m t)) ∧
      (∀ t, (opt_mem_time a t ∨ opt_mem_time m t) ↔
        periods_mem_time (temporals_get_time exC5) t)) :=
  ⟨by decide, by decide, by decide, Or.inr (by decide),
   C5_at_minus_period_partition exC5 exC5P (by decide) (by decide) (by decide)
     (Or.inr (by decide))⟩
